import Mathlib

/-!
Verification development for the schema-preprocessing pipeline implemented in
`preprocess_schemas.py`.  JSON documents are modelled as a nested inductive
type; Python dictionaries become association lists (key order = insertion
order, unique keys when produced by the JSON parser), and Python functions
that can raise are modelled in the `Except String` monad.  String operations
are implemented over the character list of a `String` so that all
definitions compute by kernel reduction.
-/

/-- A JSON value as loaded by `json.load`: scalars, arrays and objects.
Numbers are modelled as integers (the schemas in scope use no fractional
literals). -/
inductive JSON where
  | null
  | bool (b : Bool)
  | num (n : Int)
  | str (s : String)
  | arr (elems : List JSON)
  | obj (entries : List (String × JSON))

/-- A Python dictionary with string keys, as an insertion-ordered
association list. -/
abbrev Dict := List (String × JSON)

/-! ### String helpers (all reducible by the kernel) -/

/-- `s.startswith(p)` (Python). -/
def sStartsWith (s p : String) : Bool := p.data.isPrefixOf s.data

/-- `s.endswith(p)` (Python). -/
def sEndsWith (s p : String) : Bool := p.data.reverse.isPrefixOf s.data.reverse

/-- Substring search on character lists, used for Python `pat in s`. -/
def listContainsSublist : List Char → List Char → Bool
  | l, pat =>
    if pat.isPrefixOf l then true
    else match l with
      | [] => false
      | _ :: rest => listContainsSublist rest pat

/-- `pat in s` (Python substring containment). -/
def sContainsSub (s pat : String) : Bool := listContainsSublist s.data pat.data

/-- Helper for `str.split` with a one-character separator. -/
def splitOnCharAux (c : Char) : List Char → List Char → List (List Char)
  | [], acc => [acc.reverse]
  | x :: xs, acc =>
    if x = c then acc.reverse :: splitOnCharAux c xs []
    else splitOnCharAux c xs (x :: acc)

/-- `s.split(c)` (Python) for a one-character separator `c`. -/
def sSplitOnChar (c : Char) (s : String) : List String :=
  (splitOnCharAux c s.data []).map String.mk

/-- `s.split("/")[-1]` (Python); a split result is never empty, so the
default is unreachable. -/
def sLastSlashComponent (s : String) : String :=
  (sSplitOnChar '/' s).getLastD ""

/-- `s[:-n]` (Python) for `n ≤ len(s)`. -/
def sDropRight (s : String) (n : Nat) : String :=
  String.mk (s.data.take (s.data.length - n))

/-- `s.replace("\\", "/")` (Python): backslash replacement done during path
normalisation (single-character replacement). -/
def sBackslashToSlash (s : String) : String :=
  String.mk (s.data.map (fun c => if c = '\\' then '/' else c))

/-- `s.capitalize()` (Python): first character upper-cased, rest lower-cased. -/
def pyCapitalize (s : String) : String :=
  match s.data with
  | [] => ""
  | c :: cs => String.mk (c.toUpper :: cs.map Char.toLower)

/-- Code-point comparison of character lists, matching Python string `<=`. -/
def charListLe : List Char → List Char → Bool
  | [], _ => true
  | _ :: _, [] => false
  | c :: cs, d :: ds => if c = d then charListLe cs ds else decide (c.val < d.val)

/-- Python `a <= b` on strings (lexicographic by code point). -/
def strLeB (a b : String) : Bool := charListLe a.data b.data

/-! ### Structural size of a JSON value (fuel measure for the ref inliner) -/

mutual

def jsize : JSON → Nat
  | .null => 1
  | .bool _ => 1
  | .num _ => 1
  | .str _ => 1
  | .arr l => 1 + jsizeArr l
  | .obj kvs => 1 + jsizeObj kvs

def jsizeArr : List JSON → Nat
  | [] => 0
  | x :: xs => 1 + jsize x + jsizeArr xs

def jsizeObj : List (String × JSON) → Nat
  | [] => 0
  | p :: rest => 1 + jsize p.2 + jsizeObj rest

end

/-! ### Dictionary primitives -/

/-- `d[k]` lookup returning `none` when the key is absent. -/
def dlookup : Dict → String → Option JSON
  | [], _ => none
  | p :: rest, k => if p.1 = k then some p.2 else dlookup rest k

/-- `k in d` (Python key membership). -/
def dContains (d : Dict) (k : String) : Bool := (dlookup d k).isSome

/-- `d[k] = v`: update the existing entry in place, else append. -/
def dinsert (d : Dict) (k : String) (v : JSON) : Dict :=
  if dContains d k then d.map (fun p => if p.1 = k then (k, v) else p)
  else d ++ [(k, v)]

/-- `del d[k]`. -/
def derase (d : Dict) (k : String) : Dict := d.filter (fun p => p.1 ≠ k)

/-- `d.keys()`. -/
def dkeys (d : Dict) : List String := d.map Prod.fst

/-- `d.get(k, default)` (Python). -/
def dgetD (d : Dict) (k : String) (v : JSON) : JSON := (dlookup d k).getD v

/-! ### Basic dictionary lemmas -/

theorem dlookup_mapUpdate_self (k : String) (v : JSON) :
    ∀ d : Dict, dContains d k = true →
      dlookup (d.map (fun p => if p.1 = k then (k, v) else p)) k = some v := by
  intro d
  induction d with
  | nil => intro h; simp [dContains, dlookup] at h
  | cons p rest ih =>
    intro h
    by_cases hp : p.1 = k
    · simp [dlookup, hp]
    · simp [dContains, dlookup, hp] at h
      simpa [dlookup, hp] using ih h

theorem dlookup_mapUpdate_ne (k k' : String) (v : JSON) (h : k' ≠ k) :
    ∀ d : Dict,
      dlookup (d.map (fun p => if p.1 = k then (k, v) else p)) k' = dlookup d k' := by
  intro d
  induction d with
  | nil => simp [dlookup]
  | cons p rest ih =>
    by_cases hp : p.1 = k
    · have hk : ¬ (k = k') := fun e => h e.symm
      have hp' : ¬ (p.1 = k') := by
        rw [hp]; exact hk
      simpa [dlookup, hp, hk, hp'] using ih
    · by_cases hk' : p.1 = k'
      · simp [dlookup, hp, hk', h]
      · simpa [dlookup, hp, hk'] using ih

theorem dlookup_append_single_ne (d : Dict) (k k' : String) (v : JSON) (h : k' ≠ k) :
    dlookup (d ++ [(k, v)]) k' = dlookup d k' := by
  induction d with
  | nil =>
    simp [dlookup]
    exact fun e => h e.symm
  | cons p rest ih =>
    by_cases hk' : p.1 = k'
    · simp [dlookup, hk']
    · simpa [dlookup, hk'] using ih

theorem dContains_false_dlookup (d : Dict) (k : String) (h : dContains d k = false) :
    dlookup d k = none := by
  unfold dContains at h
  cases hl : dlookup d k with
  | none => rfl
  | some v => rw [hl] at h; simp at h

theorem dlookup_dinsert_self (d : Dict) (k : String) (v : JSON) :
    dlookup (dinsert d k v) k = some v := by
  unfold dinsert
  by_cases h : dContains d k
  · simpa [h] using dlookup_mapUpdate_self k v d h
  · simp [h]
    induction d with
    | nil => simp [dlookup]
    | cons p rest ih =>
      simp at h
      have h' := dContains_false_dlookup _ _ h
      simp [dlookup] at h'
      by_cases hp : p.1 = k
      · simp [hp] at h'
      · rw [if_neg hp] at h'
        simp [dlookup, hp]
        apply ih
        simp [dContains, h']

theorem dlookup_dinsert_ne (d : Dict) (k k' : String) (v : JSON) (h : k' ≠ k) :
    dlookup (dinsert d k v) k' = dlookup d k' := by
  unfold dinsert
  by_cases hc : dContains d k
  · simpa [hc] using dlookup_mapUpdate_ne k k' v h d
  · simpa [hc] using dlookup_append_single_ne d k k' v h

theorem dlookup_derase_self (d : Dict) (k : String) :
    dlookup (derase d k) k = none := by
  induction d with
  | nil => simp [derase, dlookup]
  | cons p rest ih =>
    by_cases hp : p.1 = k
    · simpa [derase, hp] using ih
    · simpa [derase, dlookup, hp] using ih

theorem dlookup_derase_ne (d : Dict) (k k' : String) (h : k' ≠ k) :
    dlookup (derase d k) k' = dlookup d k' := by
  induction d with
  | nil => rfl
  | cons p rest ih =>
    unfold derase at ih ⊢
    by_cases hp : p.1 = k
    · have hd : (decide (p.1 ≠ k)) = false := by simp [hp]
      simp only [List.filter_cons, hd, Bool.false_eq_true, if_false]
      rw [ih]
      have hp' : ¬ (p.1 = k') := by rw [hp]; exact fun e => h e.symm
      simp [dlookup, hp']
    · have hd : (decide (p.1 ≠ k)) = true := by simp [hp]
      simp only [List.filter_cons, hd, if_true]
      by_cases hk' : p.1 = k'
      · simp [dlookup, hk']
      · simp [dlookup, hk']
        simpa using ih

/-! ### Python iteration, hashability, set and sort semantics -/

/-- Error message used where the Python code would raise (never for fuel
exhaustion, which uses `fuelErrMsg`). -/
def pyErrMsg : String := "python runtime error"

/-- Error message for fuel exhaustion of the modelled recursion; the inliner
termination theorem shows it is never produced. -/
def fuelErrMsg : String := "out of fuel"

/-- `for item in x` (Python): elements of a list, keys of a dict,
one-character strings of a string; anything else raises `TypeError`. -/
def pyIterElems : JSON → Except String (List JSON)
  | .arr l => .ok l
  | .obj kvs => .ok (kvs.map (fun p => JSON.str p.1))
  | .str s => .ok (s.data.map (fun c => JSON.str (String.mk [c])))
  | _ => .error pyErrMsg

/-- Scalars are hashable in Python; lists and dicts are not. -/
def hashableScalar : JSON → Bool
  | .obj _ => false
  | .arr _ => false
  | _ => true

/-- Python `==` on hashable scalars (note `True == 1` and `False == 0`). -/
def pyEqScalar : JSON → JSON → Bool
  | .null, .null => true
  | .bool a, .bool b => a == b
  | .num a, .num b => a == b
  | .bool a, .num b => (if a then (1 : Int) else 0) == b
  | .num a, .bool b => a == (if b then (1 : Int) else 0)
  | .str a, .str b => a == b
  | _, _ => false

/-- Membership in the list model of a Python set. -/
def pysetMem (x : JSON) (s : List JSON) : Bool := s.any (fun y => pyEqScalar x y)

/-- `s.add(x)`.  CPython set iteration order is hash-dependent; the model
keeps first-insertion order, and every theorem below about set contents is
order-insensitive. -/
def pysetAdd (s : List JSON) (x : JSON) : List JSON :=
  if pysetMem x s then s else s ++ [x]

/-- `s.discard(x)`. -/
def pysetDiscard (s : List JSON) (x : JSON) : List JSON :=
  s.filter (fun y => !(pyEqScalar x y))

/-- `set(x)` (Python): iterate and deduplicate; raises on non-iterables and
on unhashable elements. -/
def pySetOf (v : JSON) : Except String (List JSON) := do
  let els ← pyIterElems v
  if els.all hashableScalar then pure (els.foldl pysetAdd [])
  else throw pyErrMsg

/-- `set(l)` for an already-extracted element list (used for
`set(a + b)` in the flattener). -/
def pySetOfList (l : List JSON) : Except String (List JSON) :=
  if l.all hashableScalar then pure (l.foldl pysetAdd []) else throw pyErrMsg

/-- Insertion step of the string sort. -/
def insertSortedStr (x : String) : List String → List String
  | [] => [x]
  | y :: ys => if strLeB x y then x :: y :: ys else y :: insertSortedStr x ys

/-- Insertion sort by Python string comparison. -/
def sortStrs : List String → List String
  | [] => []
  | x :: xs => insertSortedStr x (sortStrs xs)

def isStr : JSON → Bool
  | .str _ => true
  | _ => false

def getStr : JSON → Option String
  | .str s => some s
  | _ => none

/-- Python numeric value of an int/bool scalar (for `sorted` on numbers). -/
def pyNumVal : JSON → Option Int
  | .num n => some n
  | .bool b => some (if b then 1 else 0)
  | _ => none

/-- Insertion step of the numeric sort. -/
def insertSortedNum (x : JSON) : List JSON → List JSON
  | [] => [x]
  | y :: ys =>
    if (pyNumVal x).getD 0 ≤ (pyNumVal y).getD 0 then x :: y :: ys
    else y :: insertSortedNum x ys

def sortNums : List JSON → List JSON
  | [] => []
  | x :: xs => insertSortedNum x (sortNums xs)

/-- `sorted(l)` (Python): comparisons only happen for two or more elements;
all-string and all-numeric lists sort, anything else raises `TypeError`.
(Mixed-but-comparable exotica such as `[True, 2]` sort numerically, matching
Python; incomparable mixtures raise.) -/
def pySorted (l : List JSON) : Except String (List JSON) :=
  if l.length ≤ 1 then .ok l
  else if l.all isStr then .ok ((sortStrs (l.filterMap getStr)).map JSON.str)
  else if l.all (fun x => (pyNumVal x).isSome) then .ok (sortNums l)
  else .error pyErrMsg

/-- Effectful map over a list in the `Except String` monad (the loop shape
of the Python traversals: stop at the first raised exception). -/
def mapMExcept {A B : Type} (f : A → Except String B) : List A → Except String (List B)
  | [] => .ok []
  | x :: rest => do
    let y ← f x
    let ys ← mapMExcept f rest
    pure (y :: ys)

/-- Effectful left fold in the `Except String` monad. -/
def foldlMExcept {A B : Type} (f : B → A → Except String B) :
    B → List A → Except String B
  | acc, [] => .ok acc
  | acc, x :: rest => do
    let acc2 ← f acc x
    foldlMExcept f acc2 rest

@[simp] theorem except_pure_eq {A : Type} (a : A) :
    (pure a : Except String A) = .ok a := rfl

@[simp] theorem except_bind_ok_eq {A B : Type} (a : A) (f : A → Except String B) :
    ((Except.ok a : Except String A) >>= f) = f a := rfl

@[simp] theorem except_bind_error_eq {A B : Type} (e : String)
    (f : A → Except String B) :
    ((Except.error e : Except String A) >>= f) = Except.error e := rfl

@[simp] theorem except_map_ok_eq {A B : Type} (g : A → B) (a : A) :
    Except.map g (Except.ok a : Except String A) = .ok (g a) := rfl

@[simp] theorem except_map_error_eq {A B : Type} (g : A → B) (e : String) :
    Except.map g (Except.error e : Except String A) = .error e := rfl

@[simp] theorem except_fmap_eq {A B : Type} (g : A → B) (x : Except String A) :
    (g <$> x) = Except.map g x := rfl

/-! ### Extension-Def Pruner (`remove_extension_defs`) -/

/-- The scan over an `allOf` iteration: Python's
`for item in all_of: if isinstance(item, dict) and "$ref" in item:
ref = item["$ref"]; if not ref.startswith("#/"): …break`.  A non-string
`$ref` value reached before the break raises `AttributeError`. -/
def scanExternalRef : List JSON → Except String Bool
  | [] => .ok false
  | item :: rest =>
    match item with
    | JSON.obj ps =>
      match dlookup ps "$ref" with
      | some (JSON.str r) =>
        if sStartsWith r "#/" then scanExternalRef rest else .ok true
      | some _ => .error pyErrMsg
      | none => scanExternalRef rest
    | _ => scanExternalRef rest

/-- `has_external_ref` computation for one `allOf` value (also the
`all_internal` loop of the flattener, which is the same scan negated). -/
def hasExternalRef (allOf : JSON) : Except String Bool :=
  (pyIterElems allOf).bind scanExternalRef

/-- The `defs_to_remove` collection loop of `remove_extension_defs`. -/
def collectDefsToRemove : Dict → Except String (List String)
  | [] => .ok []
  | (name, JSON.obj body) :: rest =>
    (match dlookup body "allOf" with
     | some a => do
        let b ← hasExternalRef a
        let r ← collectDefsToRemove rest
        pure (if b then name :: r else r)
     | none => collectDefsToRemove rest)
  | _ :: rest => collectDefsToRemove rest

/-- `remove_extension_defs` (`preprocess_schemas.py`, lines 26-61): drop
`$defs` entries whose `allOf` mentions a `$ref` not starting with `#/`,
then drop `$defs` itself when it became empty. -/
def remove_extension_defs (schema : Dict) : Except String Dict :=
  match dlookup schema "$defs" with
  | none => .ok schema
  | some (JSON.obj defs) => do
    let toRemove ← collectDefsToRemove defs
    let defs2 := defs.filter (fun p => !(toRemove.contains p.1))
    let schema2 := dinsert schema "$defs" (JSON.obj defs2)
    pure (if defs2.isEmpty then derase schema2 "$defs" else schema2)
  | some _ => .error pyErrMsg

/-! ### Codegen Cleaner (`clean_schema_for_codegen`) -/

/-- `if k in d: del d[k]` — one conditional top-level deletion of the
cleaner. -/
def stripKey (d : Dict) (k : String) : Dict :=
  if dContains d k then derase d k else d

/-- `clean_schema_for_codegen` (lines 265-279): deep-copy, then delete the
top-level `$id` and `$schema` keys when present.  Deep copies are the
identity in the value semantics of the model. -/
def clean_schema_for_codegen (schema : Dict) : Dict :=
  stripKey (stripKey schema "$id") "$schema"

/-! ### Ref Inliner (`inline_internal_refs`) -/

/-- Number of definition names not yet on the active expansion path; first
component of the termination measure of the inliner. -/
def defsKeysLeft (defs : Dict) (processed : List String) : Nat :=
  (((defs.map Prod.fst).dedup).filter (fun k => !(processed.contains k))).length

/-- Upper bound for the size of any definition body in `defs`. -/
def maxDefSize (defs : Dict) : Nat :=
  defs.foldr (fun p m => max (jsize p.2) m) 0

/-- Termination measure of the inliner: structural descent inside one
definition body, plus one full budget per definition name that can still be
opened (each name is opened at most once per path thanks to the
`processed` cycle guard). -/
def inlineMeasure (obj : JSON) (defs : Dict) (processed : List String) : Nat :=
  jsize obj + defsKeysLeft defs processed * (maxDefSize defs + 1)

/-- Fuel-indexed body of `inline_internal_refs` (lines 64-95).  The fuel is
only a formal device: `inlineF_no_fuel_error` shows that with the wrapper's
measure-derived fuel the `fuelErrMsg` branch is unreachable, which is the
termination argument for the Python recursion.  A pure-reference node is a
one-entry dict whose key is `$ref`; a non-string `$ref` value there raises
`AttributeError`. -/
def inlineF : Nat → JSON → Dict → List String → Except String JSON
  | 0, _, _, _ => .error fuelErrMsg
  | fuel+1, JSON.obj kvs, defs, processed =>
    if dContains kvs "$ref" && (kvs.length == 1) then
      match (dlookup kvs "$ref").getD JSON.null with
      | JSON.str r =>
        if sStartsWith r "#/$defs/" then
          let name := sLastSlashComponent r
          if !(processed.contains name) && dContains defs name then
            inlineF fuel ((dlookup defs name).getD JSON.null) defs (name :: processed)
          else .ok (JSON.obj kvs)
        else .ok (JSON.obj kvs)
      | _ => .error pyErrMsg
    else
      (mapMExcept (fun p => (inlineF fuel p.2 defs processed).map (fun r => (p.1, r))) kvs).map JSON.obj
  | fuel+1, JSON.arr elems, defs, processed =>
    (mapMExcept (fun x => inlineF fuel x defs processed) elems).map JSON.arr
  | _+1, j, _, _ => .ok j

/-- `inline_internal_refs(obj, defs, processed)`: the Python function, with
the recursion depth bounded by the termination measure (shown sufficient
below).  `copy.deepcopy` is the identity in the value semantics. -/
def inline_internal_refs (obj : JSON) (defs : Dict) (processed : List String) :
    Except String JSON :=
  inlineF (inlineMeasure obj defs processed + 1) obj defs processed

/-! ### AllOf Flattener (`flatten_allof_in_defs`) -/

/-- `dict.update` for two dicts: existing keys updated in place, new keys
appended in the update order. -/
def dictUpdate (pm pv : Dict) : Dict := pv.foldl (fun acc q => dinsert acc q.1 q.2) pm

/-- One `for k, v in resolved.items()` merge step of the flattener:
`properties` dicts are unioned, `required` sequences are set-unioned,
`title`/`description`/`allOf` are skipped, anything else is overwritten.
`merged[k].update(v)` and `merged[k] + v` raise unless both operands are of
the expected container kind (the string/pair-list acceptances of the Python
operations are outside the shapes the pipeline produces). -/
def mergeKV (m : Dict) (kv : String × JSON) : Except String Dict :=
  if kv.1 == "properties" && dContains m "properties" then
    match dlookup m "properties", kv.2 with
    | some (JSON.obj pm), JSON.obj pv =>
      .ok (dinsert m "properties" (JSON.obj (dictUpdate pm pv)))
    | _, _ => .error pyErrMsg
  else if kv.1 == "required" && dContains m "required" then
    match dlookup m "required", kv.2 with
    | some (JSON.arr ra), JSON.arr rb =>
      (pySetOfList (ra ++ rb)).map (fun s => dinsert m "required" (JSON.arr s))
    | _, _ => .error pyErrMsg
  else if !(kv.1 == "title") && !(kv.1 == "description") && !(kv.1 == "allOf") then
    .ok (dinsert m kv.1 kv.2)
  else .ok m

/-- `for k, v in resolved.items(): …` — requires `resolved` to be a dict. -/
def mergeResolved (m : Dict) (resolved : JSON) : Except String Dict :=
  match resolved with
  | JSON.obj kvs => foldlMExcept mergeKV m kvs
  | _ => .error pyErrMsg

/-- One iteration of the flattener's loop over the `$defs` snapshot:
`cur` is the current (mutated-in-place) definitions dict, `p` the snapshot
entry being processed. -/
def flattenEntry (cur : Dict) (p : String × JSON) : Except String Dict :=
  match p.2 with
  | JSON.obj body =>
    match dlookup body "allOf" with
    | some a => do
      let ext ← hasExternalRef a
      if ext then pure cur
      else do
        let merged0 ← foldlMExcept
          (fun m item => (inline_internal_refs item cur []).bind (mergeResolved m)) []
          (← pyIterElems a)
        let merged1 := match dlookup body "title" with
          | some t => dinsert merged0 "title" t
          | none => merged0
        let merged2 := match dlookup body "description" with
          | some dsc => dinsert merged1 "description" dsc
          | none => merged1
        pure (dinsert cur p.1 (JSON.obj merged2))
    | none => pure cur
  | _ => pure cur

/-- `flatten_allof_in_defs` (lines 98-142): flatten every `$defs` entry
whose `allOf` has no external reference, iterating over a snapshot of the
entries while updating the dict in place. -/
def flatten_allof_in_defs (schema : Dict) : Except String Dict :=
  match dlookup schema "$defs" with
  | none => .ok schema
  | some (JSON.obj defs0) => do
    let final ← foldlMExcept flattenEntry defs0 defs0
    pure (dinsert schema "$defs" (JSON.obj final))
  | some _ => .error pyErrMsg

/-! ### Scenario Ref Rewriter (`update_refs_for_scenario`) -/

/-- Path components of a POSIX path as normalised by `pathlib.PurePath`:
empty components and `.` are dropped. -/
def pathParts (s : String) : List String :=
  (sSplitOnChar '/' s).filter (fun c => !(c == "") && !(c == "."))

/-- Rendering of a `pathlib` path from its components. -/
def renderPath (isAbs : Bool) (parts : List String) : String :=
  match parts with
  | [] => if isAbs then "/" else "."
  | _ => (if isAbs then "/" else "") ++ String.intercalate "/" parts

/-- `str(pathlib.Path(dir) / val)` for POSIX paths: an absolute `val`
discards `dir`; `.` and empty components are dropped. -/
def pyPathJoin (dir val : String) : String :=
  if sStartsWith val "/" then renderPath true (pathParts val)
  else if sStartsWith dir "/" then renderPath true (pathParts dir ++ pathParts val)
  else renderPath false (pathParts dir ++ pathParts val)

/-- The `ref_path` computation of the rewriter (lines 160-167): join with
the current directory when it is nonempty, then replace backslashes. -/
def normRefPath (currentDir val : String) : String :=
  sBackslashToSlash (if currentDir == "" then val else pyPathJoin currentDir val)

/-- Rewrite rule for one `$ref` string value (lines 154-178). -/
def rewriteRefValue (v sc : String) (sws : List String) (dir : String) : String :=
  if sStartsWith v "#/" || sContainsSub v "#/$defs/" then v
  else if sEndsWith v ".json" then
    if sws.contains (normRefPath dir v) then
      sDropRight v 5 ++ "_" ++ sc ++ "_request.json"
    else v
  else v

mutual

/-- `update_refs_for_scenario` (lines 145-184): rebuild the tree, rewriting
every string-valued `$ref` entry via `rewriteRefValue`. -/
def update_refs_for_scenario (obj : JSON) (sc : String) (sws : List String)
    (dir : String) : JSON :=
  match obj with
  | .obj kvs => .obj (updateRefsEntries kvs sc sws dir)
  | .arr xs => .arr (updateRefsArr xs sc sws dir)
  | j => j

/-- Entry list traversal of `update_refs_for_scenario`. -/
def updateRefsEntries : List (String × JSON) → String → List String → String →
    List (String × JSON)
  | [], _, _, _ => []
  | (k, v) :: rest, sc, sws, dir =>
    (if k = "$ref" then
       match v with
       | JSON.str s => (k, JSON.str (rewriteRefValue s sc sws dir))
       | w => (k, update_refs_for_scenario w sc sws dir)
     else (k, update_refs_for_scenario v sc sws dir)) :: updateRefsEntries rest sc sws dir

/-- Array traversal of `update_refs_for_scenario`. -/
def updateRefsArr : List JSON → String → List String → String → List JSON
  | [], _, _, _ => []
  | x :: xs, sc, sws, dir =>
    update_refs_for_scenario x sc sws dir :: updateRefsArr xs sc sws dir

end

/-! ### Scenario Generator (`process_ucp_request_scenarios`) -/

mutual

/-- `repr(x)` rendering used by the f-string retitling for containers (the
exact repr of exotic non-string titles is irrelevant to all claims, which
use string titles). -/
def pyRepr : JSON → String
  | .null => "None"
  | .bool true => "True"
  | .bool false => "False"
  | .num n => toString n
  | .str s => "\x27" ++ s ++ "\x27"
  | .arr l => "[" ++ pyReprList l ++ "]"
  | .obj kvs => "\x7b" ++ pyReprEntries kvs ++ "\x7d"

def pyReprList : List JSON → String
  | [] => ""
  | [x] => pyRepr x
  | x :: xs => pyRepr x ++ ", " ++ pyReprList xs

def pyReprEntries : List (String × JSON) → String
  | [] => ""
  | [p] => "\x27" ++ p.1 ++ "\x27: " ++ pyRepr p.2
  | p :: ps => "\x27" ++ p.1 ++ "\x27: " ++ pyRepr p.2 ++ ", " ++ pyReprEntries ps

end

/-- `str(x)` (Python): identity on strings, `repr` on containers. -/
def pyStr : JSON → String
  | .str s => s
  | j => pyRepr j

/-- One step of the scenario-type detection loop: add the keys of a
dict-valued `ucp_request` annotation to the accumulated set (modelled as a
first-seen-order deduplicated list). -/
def cstStep (acc : List String) (p : String × JSON) : List String :=
  match p.2 with
  | JSON.obj ps =>
    match dlookup ps "ucp_request" with
    | some (JSON.obj m) =>
      m.foldl (fun a q => if a.contains q.1 then a else a ++ [q.1]) acc
    | _ => acc
  | _ => acc

/-- The scenario-type detection loop (lines 200-205): union of the keys of
every dict-valued `ucp_request` over the top-level properties, in
first-seen order. -/
def collectScenarioTypes (props : Dict) : List String :=
  props.foldl cstStep []

/-- Python `x == "<lit>"` for a JSON value: true exactly on the equal
string. -/
def isStrEq (d : JSON) (s : String) : Bool :=
  match d with
  | JSON.str t => t == s
  | _ => false

/-- Directive resolution for one property and scenario (lines 231-236). -/
def directiveOf (ucp : JSON) (sc : String) : JSON :=
  match ucp with
  | JSON.str s => JSON.str s
  | JSON.obj m => dgetD m sc (JSON.str "optional")
  | _ => JSON.str "optional"

/-- Accumulator of the per-property loop (lines 220-245): the rebuilt
properties (with `ucp_request` annotations deleted), the omitted property
names, and the working `required_fields` set. -/
structure ScanState where
  newProps : Dict
  toRemove : List String
  reqFields : List JSON

/-- One iteration of the per-property loop of the Scenario Generator. -/
def directiveStep (sc : String) (st : ScanState) (p : String × JSON) : ScanState :=
  match p.2 with
  | JSON.obj ps =>
    match dlookup ps "ucp_request" with
    | some ucp =>
      let ps2 := derase ps "ucp_request"
      let d := directiveOf ucp sc
      if isStrEq d "omit" then
        ⟨st.newProps ++ [(p.1, JSON.obj ps2)], st.toRemove ++ [p.1],
          pysetDiscard st.reqFields (JSON.str p.1)⟩
      else if isStrEq d "required" then
        ⟨st.newProps ++ [(p.1, JSON.obj ps2)], st.toRemove,
          pysetAdd st.reqFields (JSON.str p.1)⟩
      else if isStrEq d "optional" then
        ⟨st.newProps ++ [(p.1, JSON.obj ps2)], st.toRemove,
          pysetDiscard st.reqFields (JSON.str p.1)⟩
      else ⟨st.newProps ++ [(p.1, JSON.obj ps2)], st.toRemove, st.reqFields⟩
    | none => ⟨st.newProps ++ [p], st.toRemove, st.reqFields⟩
  | _ => ⟨st.newProps ++ [p], st.toRemove, st.reqFields⟩

/-- The retitling step of the Scenario Generator (lines 216-217): the deep
copy with `title` rewritten to `"<title> (<Scenario> Request)"` when
present. -/
def retitled (schema : Dict) (sc : String) : Dict :=
  match dlookup schema "title" with
  | some t => dinsert schema "title"
      (JSON.str (pyStr t ++ " (" ++ pyCapitalize sc ++ " Request)"))
  | none => schema

/-- Construction of one scenario document (lines 212-260): deep copy,
retitle, process the `ucp_request` directives, delete omitted properties,
recompute `required`, then rewrite the `$ref`s. -/
def buildScenario (schema : Dict) (sc : String) (sws : List String)
    (schemaDir : String) : Except String Dict := do
  let s1 := retitled schema sc
  let rf0 ← pySetOf (dgetD s1 "required" (JSON.arr []))
  match dlookup s1 "properties" with
  | some (JSON.obj props) =>
    let st := props.foldl (directiveStep sc) ⟨[], [], rf0⟩
    let props2 := st.newProps.filter (fun p => !(st.toRemove.contains p.1))
    let s2 := dinsert s1 "properties" (JSON.obj props2)
    let s3 ← if st.reqFields.isEmpty then
        pure (if dContains s2 "required" then derase s2 "required" else s2)
      else do
        let sortedReq ← pySorted st.reqFields
        pure (dinsert s2 "required" (JSON.arr sortedReq))
    pure (updateRefsEntries s3 sc sws schemaDir)
  | _ => .error pyErrMsg

/-- `process_ucp_request_scenarios` (lines 187-262).  The returned Python
dict, keyed by scenario name, is modelled in first-detection order (CPython
iterates the `scenario_types` set in hash order; every claim about the
result is order-insensitive).  `base_name` is accepted and unused, exactly
as in the source. -/
def process_ucp_request_scenarios (schema : Dict) (baseName : String)
    (sws : List String) (schemaDir : String) : Except String (List (String × Dict)) :=
  match dlookup schema "properties" with
  | none => .ok [("base", schema)]
  | some (JSON.obj props) =>
    let sts := collectScenarioTypes props
    if sts.isEmpty then .ok [("base", schema)]
    else mapMExcept
      (fun sc => (buildScenario schema sc sws schemaDir).map (fun d => (sc, d))) sts
  | some _ => .error pyErrMsg

/-! ### Driver write step (`preprocess_schema_file`, lines 321-340) -/

/-- The files written for one input document, as `(filename, content)`
pairs: a lone `"base"` result is written to the mirrored path; otherwise
the pruned/flattened base document is written (deep copy = identity here)
followed by one `<base>_<scenario>_request.json` file per scenario. -/
def writeOutputs (scenarios : List (String × Dict)) (schema : Dict)
    (baseName : String) : List (String × Dict) :=
  if scenarios.length == 1 && (scenarios.map Prod.fst).contains "base" then
    match scenarios with
    | [(_, base)] => [(baseName ++ ".json", clean_schema_for_codegen base)]
    | _ => []
  else
    (baseName ++ ".json", clean_schema_for_codegen schema) ::
      scenarios.map (fun p =>
        (baseName ++ "_" ++ p.1 ++ "_request.json", clean_schema_for_codegen p.2))

/-! ### Further dictionary lemmas -/

theorem dkeys_cons (p : String × JSON) (rest : Dict) :
    dkeys (p :: rest) = p.1 :: dkeys rest := rfl

theorem dlookup_none_of_not_mem_dkeys :
    ∀ (d : Dict) (k : String), k ∉ dkeys d → dlookup d k = none
  | [], _, _ => rfl
  | p :: rest, k, h => by
    rw [dkeys_cons] at h
    simp at h
    have h1 : ¬ (p.1 = k) := fun e => h.1 e.symm
    simp only [dlookup, if_neg h1]
    exact dlookup_none_of_not_mem_dkeys rest k h.2

theorem mem_dkeys_of_dlookup :
    ∀ (d : Dict) (k : String) (v : JSON), dlookup d k = some v → k ∈ dkeys d
  | [], k, v, h => by simp [dlookup] at h
  | p :: rest, k, v, h => by
    rw [dkeys_cons]
    by_cases hp : p.1 = k
    · rw [← hp]
      exact List.mem_cons_self _ _
    · simp [dlookup, hp] at h
      exact List.mem_cons_of_mem _ (mem_dkeys_of_dlookup rest k v h)

theorem mem_of_dlookup :
    ∀ (d : Dict) (k : String) (v : JSON), dlookup d k = some v → (k, v) ∈ d
  | [], k, v, h => by simp [dlookup] at h
  | p :: rest, k, v, h => by
    by_cases hp : p.1 = k
    · simp [dlookup, hp] at h
      have hpv : p = (k, v) := by
        cases p with
        | mk a b => simp_all
      rw [hpv]
      exact List.mem_cons_self _ _
    · simp [dlookup, hp] at h
      exact List.mem_cons_of_mem _ (mem_of_dlookup rest k v h)

theorem dContains_eq_false_iff {d : Dict} {k : String} :
    dContains d k = false ↔ dlookup d k = none := by
  unfold dContains
  cases dlookup d k <;> simp

theorem dContains_eq_true_iff {d : Dict} {k : String} :
    dContains d k = true ↔ ∃ v, dlookup d k = some v := by
  unfold dContains
  cases dlookup d k <;> simp

/-! ### Claim C7 — idempotence of the Codegen Cleaner -/

theorem stripKey_lookup_self (d : Dict) (k : String) :
    dlookup (stripKey d k) k = none := by
  unfold stripKey
  by_cases c : dContains d k
  · simp only [c, if_true]
    exact dlookup_derase_self d k
  · simp only [c, if_false]
    exact dContains_eq_false_iff.mp (by simpa using c)

theorem stripKey_lookup_ne (d : Dict) (k k' : String) (h : k' ≠ k) :
    dlookup (stripKey d k) k' = dlookup d k' := by
  unfold stripKey
  by_cases c : dContains d k
  · simp only [c, if_true]
    exact dlookup_derase_ne d k k' h
  · simp [c]

theorem stripKey_noop (d : Dict) (k : String) (h : dlookup d k = none) :
    stripKey d k = d := by
  unfold stripKey
  rw [if_neg]
  simp [dContains, h]

theorem clean_lookup_id (schema : Dict) :
    dlookup (clean_schema_for_codegen schema) "$id" = none := by
  unfold clean_schema_for_codegen
  rw [stripKey_lookup_ne _ _ _ (by decide)]
  exact stripKey_lookup_self schema "$id"

theorem clean_lookup_schema_key (schema : Dict) :
    dlookup (clean_schema_for_codegen schema) "$schema" = none := by
  unfold clean_schema_for_codegen
  exact stripKey_lookup_self _ "$schema"

theorem clean_lookup_other (schema : Dict) (k : String) (h1 : k ≠ "$id")
    (h2 : k ≠ "$schema") :
    dlookup (clean_schema_for_codegen schema) k = dlookup schema k := by
  unfold clean_schema_for_codegen
  rw [stripKey_lookup_ne _ _ _ h2, stripKey_lookup_ne _ _ _ h1]

/-- Claim C7: the Codegen Cleaner is idempotent — applying
`clean_schema_for_codegen` twice yields the same result as applying it
once, for every schema document. -/
theorem clean_idempotent (schema : Dict) :
    clean_schema_for_codegen (clean_schema_for_codegen schema) =
      clean_schema_for_codegen schema := by
  show stripKey (stripKey (clean_schema_for_codegen schema) "$id") "$schema" =
    clean_schema_for_codegen schema
  rw [stripKey_noop _ _ (clean_lookup_id schema),
    stripKey_noop _ _ (clean_lookup_schema_key schema)]

/-! ### Claim C8 — frame property of the Codegen Cleaner -/

theorem dlookup_isSome_of_mem_dkeys :
    ∀ (d : Dict) (k : String), k ∈ dkeys d → ∃ v, dlookup d k = some v
  | [], k, h => by simp [dkeys] at h
  | p :: rest, k, h => by
    by_cases hp : p.1 = k
    · exact ⟨p.2, by simp [dlookup, hp]⟩
    · rw [dkeys_cons] at h
      rcases List.mem_cons.mp h with h1 | h1
      · exact absurd h1.symm hp
      · obtain ⟨v, hv⟩ := dlookup_isSome_of_mem_dkeys rest k h1
        exact ⟨v, by simp [dlookup, hp, hv]⟩

theorem dkeys_derase (d : Dict) (k : String) :
    dkeys (derase d k) = (dkeys d).filter (fun x => !(x == k)) := by
  induction d with
  | nil => rfl
  | cons p rest ih =>
    by_cases hp : p.1 = k
    · simp [derase, dkeys, hp] at ih ⊢
      simpa [derase, dkeys] using ih
    · simp [derase, dkeys, hp] at ih ⊢
      simpa [derase, dkeys] using ih

theorem filter_ne_noop {l : List String} {k : String} (h : k ∉ l) :
    l.filter (fun x => !(x == k)) = l := by
  induction l with
  | nil => rfl
  | cons x xs ih =>
    simp at h
    have hb : (!(x == k)) = true := by
      simp
      exact fun e => h.1 e.symm
    simp [List.filter_cons, hb]
    intro a ha e
    exact h.2 (e ▸ ha)

theorem dkeys_stripKey (d : Dict) (k : String) :
    dkeys (stripKey d k) = (dkeys d).filter (fun x => !(x == k)) := by
  unfold stripKey
  by_cases c : dContains d k
  · simp only [c, if_true]
    exact dkeys_derase d k
  · simp only [c, if_false]
    have : k ∉ dkeys d := by
      intro hm
      obtain ⟨v, hv⟩ := dlookup_isSome_of_mem_dkeys d k hm
      rw [dContains_eq_false_iff.mp (by simpa using c)] at hv
      cases hv
    simp [c]
    exact (filter_ne_noop this).symm

/-- Claim C8: the Codegen Cleaner's output differs from its input exactly by
the absence of the top-level keys `$id` and `$schema`: both are absent from
the output, every other top-level entry keeps its value byte-for-byte (so
nested `$id`/`$schema` occurrences inside those values are preserved), and
the key list is the input key list minus those two keys.  The source
deep-copies its input, so the input object is not mutated; in the value
semantics of the model this is expressed by the output being a pure
function of the input. -/
theorem clean_frame (schema : Dict) :
    dlookup (clean_schema_for_codegen schema) "$id" = none ∧
    dlookup (clean_schema_for_codegen schema) "$schema" = none ∧
    (∀ k, k ≠ "$id" → k ≠ "$schema" →
      dlookup (clean_schema_for_codegen schema) k = dlookup schema k) ∧
    dkeys (clean_schema_for_codegen schema) =
      (dkeys schema).filter (fun k => !(k == "$id") && !(k == "$schema")) := by
  refine ⟨clean_lookup_id schema, clean_lookup_schema_key schema,
    clean_lookup_other schema, ?_⟩
  unfold clean_schema_for_codegen
  rw [dkeys_stripKey, dkeys_stripKey, List.filter_filter]
  apply List.filter_congr
  intro x _
  exact Bool.and_comm _ _

/-- Witness for C8 at a concrete document. -/
theorem clean_frame_witness :
    dlookup (clean_schema_for_codegen
      [("$id", JSON.str "urn:x"), ("title", JSON.str "T")]) "title" =
      dlookup [("$id", JSON.str "urn:x"), ("title", JSON.str "T")] "title" :=
  (clean_frame _).2.2.1 "title" (by decide) (by decide)

/-! ### Claim C9 — silent pass-through of unresolvable references -/

/-- Claim C9: a pure-reference node whose local target (`#/$defs/<name>`)
does not exist in the definitions mapping, or whose target does not point
into the local `$defs` at all (external documents in particular), is
returned unchanged by the Ref Inliner — an `Except.ok` result, not a
failure — for every definitions mapping and expansion set. -/
theorem inline_passthrough (defs : Dict) (processed : List String) (r : String)
    (h : sStartsWith r "#/$defs/" = false ∨
      (sStartsWith r "#/$defs/" = true ∧
        dContains defs (sLastSlashComponent r) = false)) :
    inline_internal_refs (JSON.obj [("$ref", JSON.str r)]) defs processed =
      .ok (JSON.obj [("$ref", JSON.str r)]) := by
  unfold inline_internal_refs
  rcases h with h1 | ⟨h1, h2⟩
  · simp [inlineF, dContains, dlookup, h1]
  · simp [inlineF, dContains, dlookup, h1, h2]
    intro _ habs
    unfold dContains at h2
    rw [habs] at h2
    cases h2

/-- Witness for C9: a dangling local reference and an external reference
both pass through unchanged. -/
theorem inline_passthrough_witness :
    inline_internal_refs (JSON.obj [("$ref", JSON.str "#/$defs/missing")]) [] [] =
      .ok (JSON.obj [("$ref", JSON.str "#/$defs/missing")]) ∧
    inline_internal_refs (JSON.obj [("$ref", JSON.str "other.json")])
      [("a", JSON.null)] [] = .ok (JSON.obj [("$ref", JSON.str "other.json")]) :=
  ⟨inline_passthrough [] [] "#/$defs/missing" (Or.inr ⟨rfl, rfl⟩),
   inline_passthrough [("a", JSON.null)] [] "other.json" (Or.inl rfl)⟩

/-! ### Claim C2 — Extension-Def Pruner -/

theorem exceptBindOk {α β : Type} {x : Except String α} {f : α → Except String β}
    {b : β} (h : x.bind f = .ok b) : ∃ a, x = .ok a ∧ f a = .ok b := by
  cases x with
  | error e => cases h
  | ok a => exact ⟨a, rfl, h⟩

/-- A mapping node carrying a string `$ref` whose target does not start
with `#/` — the removal trigger actually implemented by the pruner (note:
`$ref` need not be the sole key). -/
def refNodeExternal (item : JSON) : Prop :=
  ∃ ps r, item = JSON.obj ps ∧ dlookup ps "$ref" = some (JSON.str r) ∧
    sStartsWith r "#/" = false

theorem scan_spec : ∀ (l : List JSON) (b : Bool), scanExternalRef l = .ok b →
    (b = true ↔ ∃ item ∈ l, refNodeExternal item)
  | [], b, h => by
    simp [scanExternalRef] at h
    subst h
    simp
  | item :: rest, b, h => by
    match hitem : item with
    | JSON.obj ps =>
      simp only [scanExternalRef] at h
      match hr : dlookup ps "$ref" with
      | none =>
        rw [hr] at h
        dsimp only at h
        rw [scan_spec rest b h]
        constructor
        · intro ⟨it, hin, hext⟩
          exact ⟨it, List.mem_cons_of_mem _ hin, hext⟩
        · intro ⟨it, hin, hext⟩
          rcases List.mem_cons.mp hin with he | hin'
          · obtain ⟨ps', r', heq, hlook, _⟩ := hext
            rw [he] at heq
            cases heq
            rw [hr] at hlook
            cases hlook
          · exact ⟨it, hin', hext⟩
      | some (JSON.str r) =>
        rw [hr] at h
        dsimp only at h
        by_cases hs : sStartsWith r "#/"
        · rw [if_pos hs] at h
          rw [scan_spec rest b h]
          constructor
          · intro ⟨it, hin, hext⟩
            exact ⟨it, List.mem_cons_of_mem _ hin, hext⟩
          · intro ⟨it, hin, hext⟩
            rcases List.mem_cons.mp hin with he | hin'
            · obtain ⟨ps', r', heq, hlook, hst⟩ := hext
              rw [he] at heq
              cases heq
              rw [hr] at hlook
              cases hlook
              rw [hs] at hst
              cases hst
            · exact ⟨it, hin', hext⟩
        · rw [if_neg hs] at h
          cases h
          constructor
          · intro _
            exact ⟨JSON.obj ps, List.mem_cons_self _ _,
              ⟨ps, r, rfl, hr, by simpa using hs⟩⟩
          · intro _
            rfl
      | some JSON.null => rw [hr] at h; dsimp only at h; cases h
      | some (JSON.bool x) => rw [hr] at h; dsimp only at h; cases h
      | some (JSON.num x) => rw [hr] at h; dsimp only at h; cases h
      | some (JSON.arr x) => rw [hr] at h; dsimp only at h; cases h
      | some (JSON.obj x) => rw [hr] at h; dsimp only at h; cases h
    | JSON.null | JSON.bool _ | JSON.num _ | JSON.str _ | JSON.arr _ =>
      simp only [scanExternalRef] at h
      rw [scan_spec rest b h]
      constructor
      · intro ⟨it, hin, hext⟩
        exact ⟨it, List.mem_cons_of_mem _ hin, hext⟩
      · intro ⟨it, hin, hext⟩
        rcases List.mem_cons.mp hin with he | hin'
        · obtain ⟨ps', r', heq, _, _⟩ := hext
          rw [he] at heq
          cases heq
        · exact ⟨it, hin', hext⟩

/-- The condition under which the pruner actually removes a definition
body: a dict body with an `allOf` whose Python iteration contains a mapping
holding a string `$ref` that does not start with `#/`. -/
def removalCond (body : JSON) : Prop :=
  ∃ bentries a items, body = JSON.obj bentries ∧
    dlookup bentries "allOf" = some a ∧ pyIterElems a = .ok items ∧
    ∃ item ∈ items, refNodeExternal item

theorem collect_mem : ∀ (defs : Dict) (toRem : List String),
    collectDefsToRemove defs = .ok toRem →
    ∀ name, name ∈ toRem ↔ ∃ p ∈ defs, p.1 = name ∧ removalCond p.2
  | [], toRem, h, name => by
    cases h
    simp
  | (nm, JSON.obj body) :: rest, toRem, h, name => by
    simp only [collectDefsToRemove] at h
    match ha : dlookup body "allOf" with
    | some a =>
      rw [ha] at h
      dsimp only at h
      obtain ⟨b, hb, h2⟩ := exceptBindOk h
      obtain ⟨r, hrec, h3⟩ := exceptBindOk h2
      simp only [pure, Except.pure] at h3
      cases h3
      obtain ⟨items, hitems, hscan⟩ := exceptBindOk hb
      have hiff := scan_spec items b hscan
      have hrest := collect_mem rest r hrec
      by_cases hbv : b = true
      · subst hbv
        simp only [if_true]
        constructor
        · intro hm
          rcases List.mem_cons.mp hm with he | hm'
          · subst he
            exact ⟨(name, JSON.obj body), List.mem_cons_self _ _, rfl,
              ⟨body, a, items, rfl, ha, hitems, hiff.mp rfl⟩⟩
          · obtain ⟨p, hp, hpn, hpc⟩ := (hrest name).mp hm'
            exact ⟨p, List.mem_cons_of_mem _ hp, hpn, hpc⟩
        · intro ⟨p, hp, hpn, hpc⟩
          rcases List.mem_cons.mp hp with he | hp'
          · subst he
            simp at hpn
            subst hpn
            exact List.mem_cons_self _ _
          · exact List.mem_cons_of_mem _ ((hrest name).mpr ⟨p, hp', hpn, hpc⟩)
      · have hbf : b = false := by
          cases b
          · rfl
          · exact absurd rfl hbv
        subst hbf
        simp only [Bool.false_eq_true, if_false]
        rw [hrest name]
        constructor
        · intro ⟨p, hp, hpn, hpc⟩
          exact ⟨p, List.mem_cons_of_mem _ hp, hpn, hpc⟩
        · intro ⟨p, hp, hpn, hpc⟩
          rcases List.mem_cons.mp hp with he | hp'
          · subst he
            simp at hpn
            subst hpn
            obtain ⟨be, a', items', heq, ha', hitems', hex⟩ := hpc
            cases heq
            rw [ha] at ha'
            cases ha'
            rw [hitems] at hitems'
            cases hitems'
            exact absurd (hiff.mpr hex) (by simp)
          · exact ⟨p, hp', hpn, hpc⟩
    | none =>
      rw [ha] at h
      dsimp only at h
      rw [collect_mem rest toRem h name]
      constructor
      · intro ⟨p, hp, hpn, hpc⟩
        exact ⟨p, List.mem_cons_of_mem _ hp, hpn, hpc⟩
      · intro ⟨p, hp, hpn, hpc⟩
        rcases List.mem_cons.mp hp with he | hp'
        · subst he
          obtain ⟨be, a', items', heq, ha', _, _⟩ := hpc
          cases heq
          rw [ha] at ha'
          cases ha'
        · exact ⟨p, hp', hpn, hpc⟩
  | (nm, JSON.null) :: rest, toRem, h, name => by
    simp only [collectDefsToRemove] at h
    rw [collect_mem rest toRem h name]
    constructor
    · intro ⟨p, hp, hpn, hpc⟩
      exact ⟨p, List.mem_cons_of_mem _ hp, hpn, hpc⟩
    · intro ⟨p, hp, hpn, hpc⟩
      rcases List.mem_cons.mp hp with he | hp'
      · subst he
        obtain ⟨be, a', items', heq, _, _, _⟩ := hpc
        cases heq
      · exact ⟨p, hp', hpn, hpc⟩
  | (nm, JSON.bool x) :: rest, toRem, h, name => by
    simp only [collectDefsToRemove] at h
    rw [collect_mem rest toRem h name]
    constructor
    · intro ⟨p, hp, hpn, hpc⟩
      exact ⟨p, List.mem_cons_of_mem _ hp, hpn, hpc⟩
    · intro ⟨p, hp, hpn, hpc⟩
      rcases List.mem_cons.mp hp with he | hp'
      · subst he
        obtain ⟨be, a', items', heq, _, _, _⟩ := hpc
        cases heq
      · exact ⟨p, hp', hpn, hpc⟩
  | (nm, JSON.num x) :: rest, toRem, h, name => by
    simp only [collectDefsToRemove] at h
    rw [collect_mem rest toRem h name]
    constructor
    · intro ⟨p, hp, hpn, hpc⟩
      exact ⟨p, List.mem_cons_of_mem _ hp, hpn, hpc⟩
    · intro ⟨p, hp, hpn, hpc⟩
      rcases List.mem_cons.mp hp with he | hp'
      · subst he
        obtain ⟨be, a', items', heq, _, _, _⟩ := hpc
        cases heq
      · exact ⟨p, hp', hpn, hpc⟩
  | (nm, JSON.str x) :: rest, toRem, h, name => by
    simp only [collectDefsToRemove] at h
    rw [collect_mem rest toRem h name]
    constructor
    · intro ⟨p, hp, hpn, hpc⟩
      exact ⟨p, List.mem_cons_of_mem _ hp, hpn, hpc⟩
    · intro ⟨p, hp, hpn, hpc⟩
      rcases List.mem_cons.mp hp with he | hp'
      · subst he
        obtain ⟨be, a', items', heq, _, _, _⟩ := hpc
        cases heq
      · exact ⟨p, hp', hpn, hpc⟩
  | (nm, JSON.arr x) :: rest, toRem, h, name => by
    simp only [collectDefsToRemove] at h
    rw [collect_mem rest toRem h name]
    constructor
    · intro ⟨p, hp, hpn, hpc⟩
      exact ⟨p, List.mem_cons_of_mem _ hp, hpn, hpc⟩
    · intro ⟨p, hp, hpn, hpc⟩
      rcases List.mem_cons.mp hp with he | hp'
      · subst he
        obtain ⟨be, a', items', heq, _, _, _⟩ := hpc
        cases heq
      · exact ⟨p, hp', hpn, hpc⟩

theorem dkeys_filter_subset (d : Dict) (f : String × JSON → Bool) :
    dkeys (d.filter f) ⊆ dkeys d :=
  List.Sublist.subset (List.Sublist.map Prod.fst (List.filter_sublist d))

theorem strListContains_iff {l : List String} {a : String} :
    l.contains a = true ↔ a ∈ l := by
  induction l with
  | nil => simp
  | cons x xs ih => simp [List.contains]

theorem entry_unique : ∀ (d : Dict) (name : String) (body : JSON)
    (p : String × JSON), (dkeys d).Nodup → dlookup d name = some body →
    p ∈ d → p.1 = name → p.2 = body
  | [], _, _, _, _, hl, hp, _ => by simp [dlookup] at hl
  | q :: rest, name, body, p, hnd, hl, hp, hpn => by
    rw [dkeys_cons] at hnd
    have hnd1 := (List.nodup_cons.mp hnd).1
    have hnd2 := (List.nodup_cons.mp hnd).2
    by_cases hq : q.1 = name
    · simp [dlookup, hq] at hl
      rcases List.mem_cons.mp hp with he | hp'
      · rw [he, ← hl]
      · exfalso
        apply hnd1
        rw [hq]
        rw [← hpn]
        exact List.mem_map_of_mem Prod.fst hp'
    · simp [dlookup, hq] at hl
      rcases List.mem_cons.mp hp with he | hp'
      · exfalso
        apply hq
        rw [he] at hpn
        exact hpn
      · exact entry_unique rest name body p hnd2 hl hp' hpn

theorem dlookup_filter_of_nodup : ∀ (d : Dict) (f : String × JSON → Bool)
    (name : String) (body : JSON), (dkeys d).Nodup →
    dlookup d name = some body →
    dlookup (d.filter f) name = if f (name, body) then some body else none
  | [], _, _, _, _, hl => by simp [dlookup] at hl
  | q :: rest, f, name, body, hnd, hl => by
    rw [dkeys_cons] at hnd
    have hnd1 := (List.nodup_cons.mp hnd).1
    have hnd2 := (List.nodup_cons.mp hnd).2
    by_cases hq : q.1 = name
    · simp only [dlookup, if_pos hq] at hl
      cases hl
      have hqe : q = (name, q.2) := by
        cases q
        simp_all
      by_cases hf : f (name, q.2)
      · rw [List.filter_cons, hqe, if_pos (by simpa using hf), if_pos hf]
        simp [dlookup]
      · rw [List.filter_cons, hqe, if_neg (by simpa using hf), if_neg hf]
        apply dlookup_none_of_not_mem_dkeys
        intro hm
        apply hnd1
        rw [hq]
        exact dkeys_filter_subset rest f hm
    · simp only [dlookup, if_neg hq] at hl
      rw [List.filter_cons]
      by_cases hf : f q
      · simp only [hf, if_true]
        simp only [dlookup, if_neg hq]
        exact dlookup_filter_of_nodup rest f name body hnd2 hl
      · simp only [hf, Bool.false_eq_true, if_false]
        exact dlookup_filter_of_nodup rest f name body hnd2 hl

/-- Claim C2 (amended): under a successful run of the pruner, (a) documents
without `$defs` pass through unchanged; (b) for a `$defs` mapping with
distinct keys, a surviving `$defs` mapping contains a subset of the
original keys, and a definition is absent from it exactly when its body has
an `allOf` iteration containing a mapping with a string `$ref` key — not
necessarily as its sole key, which is where the original claim fails —
whose target does not start with `#/`; (c) the `$defs` key survives with a
nonempty mapping or is removed entirely, and when it is removed every
definition satisfied the removal condition. -/
theorem pruning_amended (schema out : Dict)
    (hok : remove_extension_defs schema = .ok out) :
    (dlookup schema "$defs" = none → out = schema) ∧
    (∀ defs defs2, dlookup schema "$defs" = some (JSON.obj defs) →
      (dkeys defs).Nodup → dlookup out "$defs" = some (JSON.obj defs2) →
      dkeys defs2 ⊆ dkeys defs ∧
      (∀ name body, dlookup defs name = some body →
        (dContains defs2 name = false ↔ removalCond body))) ∧
    (∀ defs, dlookup schema "$defs" = some (JSON.obj defs) →
      (dkeys defs).Nodup → dlookup out "$defs" = none →
      ∀ name body, dlookup defs name = some body → removalCond body) ∧
    (∀ defs, dlookup schema "$defs" = some (JSON.obj defs) →
      dlookup out "$defs" = none ∨
        ∃ defs2, dlookup out "$defs" = some (JSON.obj defs2) ∧ defs2 ≠ []) := by
  refine ⟨?_, ?_, ?_, ?_⟩
  · intro hnone
    unfold remove_extension_defs at hok
    rw [hnone] at hok
    cases hok
    rfl
  · intro defs defs2 hdefs hnd hout
    unfold remove_extension_defs at hok
    rw [hdefs] at hok
    dsimp only at hok
    obtain ⟨toRem, hcol, hres⟩ := exceptBindOk hok
    simp only [pure, Except.pure] at hres
    by_cases hemp : (defs.filter (fun p => !(toRem.contains p.1))).isEmpty
    · rw [if_pos hemp] at hres
      cases hres
      rw [dlookup_derase_self] at hout
      cases hout
    · rw [if_neg hemp] at hres
      cases hres
      rw [dlookup_dinsert_self] at hout
      cases hout
      constructor
      · exact dkeys_filter_subset defs _
      · intro name body hlook
        rw [dContains_eq_false_iff,
          dlookup_filter_of_nodup defs _ name body hnd hlook]
        constructor
        · intro hnone2
          by_cases hf : (!(toRem.contains name)) = true
          · rw [if_pos hf] at hnone2
            cases hnone2
          · have : toRem.contains name = true := by
              cases hc : toRem.contains name
              · rw [hc] at hf
                simp at hf
              · rfl
            obtain ⟨p, hp, hpn, hpc⟩ :=
              (collect_mem defs toRem hcol name).mp (strListContains_iff.mp this)
            have := entry_unique defs name body p hnd hlook hp hpn
            rw [← this]
            exact hpc
        · intro hrc
          have hmem : name ∈ toRem :=
            (collect_mem defs toRem hcol name).mpr
              ⟨(name, body), mem_of_dlookup defs name body hlook, rfl, hrc⟩
          rw [strListContains_iff.mpr hmem]
          simp
  · intro defs hdefs hnd hout name body hlook
    unfold remove_extension_defs at hok
    rw [hdefs] at hok
    dsimp only at hok
    obtain ⟨toRem, hcol, hres⟩ := exceptBindOk hok
    simp only [pure, Except.pure] at hres
    by_cases hemp : (defs.filter (fun p => !(toRem.contains p.1))).isEmpty
    · rw [if_pos hemp] at hres
      cases hres
      have hdrop : dlookup (defs.filter (fun p => !(toRem.contains p.1))) name = none := by
        rw [List.isEmpty_iff.mp hemp]
        rfl
      rw [dlookup_filter_of_nodup defs _ name body hnd hlook] at hdrop
      by_cases hf : (!(toRem.contains name)) = true
      · rw [if_pos hf] at hdrop
        cases hdrop
      · have hct : toRem.contains name = true := by
          cases hc : toRem.contains name
          · rw [hc] at hf
            simp at hf
          · rfl
        obtain ⟨p, hp, hpn, hpc⟩ :=
          (collect_mem defs toRem hcol name).mp (strListContains_iff.mp hct)
        have := entry_unique defs name body p hnd hlook hp hpn
        rw [← this]
        exact hpc
    · rw [if_neg hemp] at hres
      cases hres
      rw [dlookup_dinsert_self] at hout
      cases hout
  · intro defs hdefs
    unfold remove_extension_defs at hok
    rw [hdefs] at hok
    dsimp only at hok
    obtain ⟨toRem, hcol, hres⟩ := exceptBindOk hok
    simp only [pure, Except.pure] at hres
    by_cases hemp : (defs.filter (fun p => !(toRem.contains p.1))).isEmpty
    · rw [if_pos hemp] at hres
      cases hres
      exact Or.inl (dlookup_derase_self _ _)
    · rw [if_neg hemp] at hres
      cases hres
      refine Or.inr ⟨_, dlookup_dinsert_self _ _ _, ?_⟩
      intro he
      rw [he] at hemp
      exact hemp rfl

/-- Counterexample to claim C2 as stated: the sole `allOf` element carries
`$ref` together with a second key `type`, so it is not a pure-reference
node (a mapping whose sole key is `$ref`); the claim therefore asserts the
definition is kept, yet the pruner removes `A` and then the emptied `$defs`
key itself. -/
theorem pruning_claim_counterexample :
    remove_extension_defs
      [("$defs", JSON.obj [("A", JSON.obj [("allOf", JSON.arr
        [JSON.obj [("$ref", JSON.str "ext.json"), ("type", JSON.str "object")]])])])] =
      .ok [] := rfl

/-- Witness for the amended C2 at a concrete document with one
external-extension definition and one plain definition. -/
theorem pruning_amended_witness :
    dContains [("B", JSON.obj [("type", JSON.str "object")])] "A" = false ↔
      removalCond (JSON.obj [("allOf",
        JSON.arr [JSON.obj [("$ref", JSON.str "ext.json")]])]) :=
  ((pruning_amended
      [("$defs", JSON.obj
        [("A", JSON.obj [("allOf", JSON.arr [JSON.obj [("$ref", JSON.str "ext.json")]])]),
         ("B", JSON.obj [("type", JSON.str "object")])])]
      [("$defs", JSON.obj [("B", JSON.obj [("type", JSON.str "object")])])]
      rfl).2.1
    [("A", JSON.obj [("allOf", JSON.arr [JSON.obj [("$ref", JSON.str "ext.json")]])]),
     ("B", JSON.obj [("type", JSON.str "object")])]
    [("B", JSON.obj [("type", JSON.str "object")])]
    rfl (by decide) rfl).2 "A"
    (JSON.obj [("allOf", JSON.arr [JSON.obj [("$ref", JSON.str "ext.json")]])]) rfl

/-! ### Claim C4 — Scenario Ref Rewriter targeting -/

/-- Claim C4: for a `$ref` string value processed by the rewriter, (a)
values starting with `#/` or containing `#/$defs/` are left byte-for-byte
unchanged; (b) a remaining value ending in `.json` whose path, resolved
against the current directory and normalised, is in the
scenario-membership set is rewritten to exactly
`<original-stem>_<scenario>_request.json`; (c) every other reference is
left byte-for-byte identical. -/
theorem ref_rewrite_targeting (v sc : String) (sws : List String) (dir : String) :
    ((sStartsWith v "#/" = true ∨ sContainsSub v "#/$defs/" = true) →
      update_refs_for_scenario (JSON.obj [("$ref", JSON.str v)]) sc sws dir =
        JSON.obj [("$ref", JSON.str v)]) ∧
    (sStartsWith v "#/" = false → sContainsSub v "#/$defs/" = false →
      sEndsWith v ".json" = true → normRefPath dir v ∈ sws →
      update_refs_for_scenario (JSON.obj [("$ref", JSON.str v)]) sc sws dir =
        JSON.obj [("$ref",
          JSON.str (sDropRight v 5 ++ "_" ++ sc ++ "_request.json"))]) ∧
    (sStartsWith v "#/" = false → sContainsSub v "#/$defs/" = false →
      (sEndsWith v ".json" = false ∨
        (sEndsWith v ".json" = true ∧ normRefPath dir v ∉ sws)) →
      update_refs_for_scenario (JSON.obj [("$ref", JSON.str v)]) sc sws dir =
        JSON.obj [("$ref", JSON.str v)]) := by
  refine ⟨?_, ?_, ?_⟩
  · intro h
    rcases h with h | h <;>
      simp [update_refs_for_scenario, updateRefsEntries, rewriteRefValue, h]
  · intro h1 h2 h3 h4
    simp [update_refs_for_scenario, updateRefsEntries, rewriteRefValue,
      h1, h2, h3, strListContains_iff.mpr h4]
    intro hn
    exact absurd h4 hn
  · intro h1 h2 h3
    rcases h3 with h3 | ⟨h3, h4⟩
    · simp [update_refs_for_scenario, updateRefsEntries, rewriteRefValue,
        h1, h2, h3]
    · have hc : sws.contains (normRefPath dir v) = false := by
        cases hcc : sws.contains (normRefPath dir v)
        · rfl
        · exact absurd (strListContains_iff.mp hcc) h4
      simp [update_refs_for_scenario, updateRefsEntries, rewriteRefValue,
        h1, h2, h3, hc]
      intro hm
      exact absurd hm h4

/-- Witness for C4: a reference with scenario variants is rewritten to the
scenario sibling; the same reference with an empty membership set is left
unchanged; an internal reference is left unchanged. -/
theorem ref_rewrite_targeting_witness :
    update_refs_for_scenario (JSON.obj [("$ref", JSON.str "types/line_item.json")])
      "create" ["types/line_item.json"] "" =
      JSON.obj [("$ref", JSON.str "types/line_item_create_request.json")] ∧
    update_refs_for_scenario (JSON.obj [("$ref", JSON.str "types/line_item.json")])
      "create" [] "" = JSON.obj [("$ref", JSON.str "types/line_item.json")] ∧
    update_refs_for_scenario (JSON.obj [("$ref", JSON.str "#/$defs/item")])
      "create" ["types/line_item.json"] "" =
      JSON.obj [("$ref", JSON.str "#/$defs/item")] :=
  ⟨(ref_rewrite_targeting "types/line_item.json" "create" ["types/line_item.json"] "").2.1
      rfl rfl rfl (by decide),
   (ref_rewrite_targeting "types/line_item.json" "create" [] "").2.2
      rfl rfl (Or.inr ⟨rfl, by decide⟩),
   (ref_rewrite_targeting "#/$defs/item" "create" ["types/line_item.json"] "").1
      (Or.inl rfl)⟩

/-! ### Claim C10 — the Scenario Generator leaves its input unchanged -/

/-- Claim C10: every edit made by the Scenario Generator happens on a
per-scenario deep copy (pure value semantics in the model), so whenever the
generator produced scenarios (any result other than a lone `"base"` entry),
the driver writes the untouched pruned/flattened input — only cleaned of
top-level `$id`/`$schema` — as the base file: its `properties` (and with
them every `ucp_request` annotation) and its `required` list are
byte-for-byte those of the generator's input. -/
theorem generator_preserves_base (schema : Dict) (baseName schemaDir : String)
    (sws : List String) (scens : List (String × Dict))
    (hok : process_ucp_request_scenarios schema baseName sws schemaDir = .ok scens)
    (hmulti : (scens.length == 1 && (scens.map Prod.fst).contains "base") = false) :
    writeOutputs scens schema baseName =
      (baseName ++ ".json", clean_schema_for_codegen schema) ::
        scens.map (fun p => (baseName ++ "_" ++ p.1 ++ "_request.json",
          clean_schema_for_codegen p.2)) ∧
    dlookup (clean_schema_for_codegen schema) "properties" =
      dlookup schema "properties" ∧
    dlookup (clean_schema_for_codegen schema) "required" =
      dlookup schema "required" := by
  refine ⟨?_, ?_, ?_⟩
  · unfold writeOutputs
    rw [hmulti]
    rfl
  · exact clean_lookup_other schema "properties" (by decide) (by decide)
  · exact clean_lookup_other schema "required" (by decide) (by decide)

/-- Witness for C10 at a concrete document with one scenario. -/
theorem generator_preserves_base_witness :
    dlookup (clean_schema_for_codegen
        [("properties", JSON.obj [("id", JSON.obj
          [("ucp_request", JSON.obj [("create", JSON.str "required")])])])])
      "properties" =
    dlookup
        [("properties", JSON.obj [("id", JSON.obj
          [("ucp_request", JSON.obj [("create", JSON.str "required")])])])]
      "properties" :=
  (generator_preserves_base
    [("properties", JSON.obj [("id", JSON.obj
      [("ucp_request", JSON.obj [("create", JSON.str "required")])])])]
    "doc" "" []
    [("create", [("properties", JSON.obj [("id", JSON.obj [])]),
      ("required", JSON.arr [JSON.str "id"])])]
    rfl rfl).2.1

/-! ### Claim C6 — scenario naming coverage -/

theorem exceptMapOk {α β : Type} {x : Except String α} {g : α → β} {b : β}
    (h : Except.map g x = .ok b) : ∃ a, x = .ok a ∧ g a = b := by
  cases x with
  | error e => cases h
  | ok a =>
    simp only [Except.map] at h
    cases h
    exact ⟨a, rfl, rfl⟩

/-- The spec-side notion of an observed scenario key: some top-level
property carries a mapping-valued `ucp_request` having that key. -/
def observedScenarioKey (props : Dict) (k : String) : Prop :=
  ∃ p ∈ props, ∃ ps m, p.2 = JSON.obj ps ∧
    dlookup ps "ucp_request" = some (JSON.obj m) ∧ k ∈ dkeys m

theorem addKeys_mem : ∀ (m : Dict) (acc : List String) (k : String),
    (k ∈ m.foldl (fun a q => if a.contains q.1 then a else a ++ [q.1]) acc) ↔
      k ∈ acc ∨ k ∈ dkeys m
  | [], acc, k => by simp [dkeys]
  | q :: m', acc, k => by
    rw [List.foldl_cons, addKeys_mem m', dkeys_cons]
    by_cases hc : acc.contains q.1
    · rw [if_pos hc]
      have hq : q.1 ∈ acc := strListContains_iff.mp hc
      simp only [List.mem_cons]
      constructor
      · intro h
        rcases h with h | h
        · exact Or.inl h
        · exact Or.inr (Or.inr h)
      · intro h
        rcases h with h | h | h
        · exact Or.inl h
        · exact Or.inl (by rw [h]; exact hq)
        · exact Or.inr h
    · rw [if_neg hc]
      simp only [List.mem_append, List.mem_singleton, List.mem_cons]
      tauto

theorem addKeys_nodup : ∀ (m : Dict) (acc : List String), acc.Nodup →
    (m.foldl (fun a q => if a.contains q.1 then a else a ++ [q.1]) acc).Nodup
  | [], _, h => h
  | q :: m', acc, h => by
    rw [List.foldl_cons]
    apply addKeys_nodup m'
    by_cases hc : acc.contains q.1
    · rw [if_pos hc]
      exact h
    · rw [if_neg hc]
      apply List.Nodup.append h (List.nodup_singleton _)
      intro a ha hb
      rw [List.mem_singleton] at hb
      subst hb
      exact hc (strListContains_iff.mpr ha)

theorem cstStep_mem (acc : List String) (p : String × JSON) (k : String) :
    k ∈ cstStep acc p ↔
      k ∈ acc ∨ (∃ ps m, p.2 = JSON.obj ps ∧
        dlookup ps "ucp_request" = some (JSON.obj m) ∧ k ∈ dkeys m) := by
  unfold cstStep
  match hp2 : p.2 with
  | JSON.obj ps =>
    dsimp only
    match hu : dlookup ps "ucp_request" with
    | some (JSON.obj m) =>
      rw [addKeys_mem]
      constructor
      · intro h
        rcases h with h | h
        · exact Or.inl h
        · exact Or.inr ⟨ps, m, rfl, hu, h⟩
      · intro h
        rcases h with h | ⟨ps', m', hps', hu', hk⟩
        · exact Or.inl h
        · cases hps'
          rw [hu] at hu'
          cases hu'
          exact Or.inr hk
    | some JSON.null | some (JSON.bool _) | some (JSON.num _)
    | some (JSON.str _) | some (JSON.arr _) =>
      constructor
      · exact Or.inl
      · intro h
        rcases h with h | ⟨ps', m', hps', hu', _⟩
        · exact h
        · cases hps'
          rw [hu] at hu'
          cases hu'
    | none =>
      constructor
      · exact Or.inl
      · intro h
        rcases h with h | ⟨ps', m', hps', hu', _⟩
        · exact h
        · cases hps'
          rw [hu] at hu'
          cases hu'
  | JSON.null | JSON.bool _ | JSON.num _ | JSON.str _ | JSON.arr _ =>
    dsimp only
    constructor
    · exact Or.inl
    · intro h
      rcases h with h | ⟨ps', m', hps', _, _⟩
      · exact h
      · cases hps'

theorem cstStep_nodup (acc : List String) (p : String × JSON) (h : acc.Nodup) :
    (cstStep acc p).Nodup := by
  unfold cstStep
  match p.2 with
  | JSON.obj ps =>
    dsimp only
    match dlookup ps "ucp_request" with
    | some (JSON.obj m) => exact addKeys_nodup m acc h
    | some JSON.null | some (JSON.bool _) | some (JSON.num _)
    | some (JSON.str _) | some (JSON.arr _) => exact h
    | none => exact h
  | JSON.null | JSON.bool _ | JSON.num _ | JSON.str _ | JSON.arr _ =>
    dsimp only
    exact h

theorem cst_go_mem : ∀ (props : Dict) (acc : List String) (k : String),
    (k ∈ props.foldl cstStep acc) ↔ k ∈ acc ∨ observedScenarioKey props k
  | [], acc, k => by simp [observedScenarioKey]
  | p :: props', acc, k => by
    rw [List.foldl_cons, cst_go_mem props', cstStep_mem]
    have hhead : observedScenarioKey (p :: props') k ↔
        ((∃ ps m, p.2 = JSON.obj ps ∧
          dlookup ps "ucp_request" = some (JSON.obj m) ∧ k ∈ dkeys m) ∨
         observedScenarioKey props' k) := by
      unfold observedScenarioKey
      constructor
      · intro ⟨q, hq, hrest⟩
        rcases List.mem_cons.mp hq with he | hq'
        · exact Or.inl (he ▸ hrest)
        · exact Or.inr ⟨q, hq', hrest⟩
      · intro h
        rcases h with h | ⟨q, hq', hrest⟩
        · exact ⟨p, List.mem_cons_self _ _, h⟩
        · exact ⟨q, List.mem_cons_of_mem _ hq', hrest⟩
    rw [hhead]
    exact or_assoc

theorem cst_go_nodup : ∀ (props : Dict) (acc : List String), acc.Nodup →
    (props.foldl cstStep acc).Nodup
  | [], _, h => h
  | p :: props', acc, h => by
    rw [List.foldl_cons]
    exact cst_go_nodup props' _ (cstStep_nodup acc p h)

theorem collectScenarioTypes_mem (props : Dict) (k : String) :
    k ∈ collectScenarioTypes props ↔ observedScenarioKey props k := by
  unfold collectScenarioTypes
  rw [cst_go_mem]
  simp

theorem collectScenarioTypes_nodup (props : Dict) :
    (collectScenarioTypes props).Nodup :=
  cst_go_nodup props [] List.nodup_nil

theorem mapM_scen_fst : ∀ (sts : List String) (f : String → Except String Dict)
    (scens : List (String × Dict)),
    mapMExcept (fun sc => Except.map (fun d => (sc, d)) (f sc)) sts = .ok scens →
    scens.map Prod.fst = sts
  | [], f, scens, h => by
    cases h
    rfl
  | sc :: sts', f, scens, h => by
    simp only [mapMExcept] at h
    obtain ⟨p, hp, h2⟩ := exceptBindOk h
    obtain ⟨rest, hrest, h3⟩ := exceptBindOk h2
    simp only [pure, Except.pure] at h3
    cases h3
    obtain ⟨d, _, hpd⟩ := exceptMapOk hp
    rw [List.map_cons, mapM_scen_fst sts' f rest hrest, ← hpd]

/-- Claim C6 (amended): (a) whenever the detection loop observes at least
one scenario key (including possibly the literal key `"base"`), a
successful run of the Scenario Generator returns exactly one entry per
distinct observed key — `"base"` is among them exactly when some
annotation uses that key, which is where the original claim fails; (b) a
document without `properties` yields the single unchanged `"base"` entry;
(c) so does a document whose `properties` mapping observes no scenario key
(scalar-valued or empty-mapping annotations included), while a document
whose `properties` is not a mapping raises instead. -/
theorem scenario_naming_amended (schema : Dict) (baseName : String)
    (sws : List String) (schemaDir : String) :
    (∀ props scens, dlookup schema "properties" = some (JSON.obj props) →
      process_ucp_request_scenarios schema baseName sws schemaDir = .ok scens →
      collectScenarioTypes props ≠ [] →
      (scens.map Prod.fst).Nodup ∧
      (∀ k, k ∈ scens.map Prod.fst ↔ observedScenarioKey props k)) ∧
    (dlookup schema "properties" = none →
      process_ucp_request_scenarios schema baseName sws schemaDir =
        .ok [("base", schema)]) ∧
    (∀ props, dlookup schema "properties" = some (JSON.obj props) →
      collectScenarioTypes props = [] →
      process_ucp_request_scenarios schema baseName sws schemaDir =
        .ok [("base", schema)]) := by
  refine ⟨?_, ?_, ?_⟩
  · intro props scens hprops hok hne
    unfold process_ucp_request_scenarios at hok
    rw [hprops] at hok
    dsimp only at hok
    rw [if_neg (by simpa [List.isEmpty_iff] using hne)] at hok
    have hfst := mapM_scen_fst _ _ _ hok
    refine ⟨?_, ?_⟩
    · rw [hfst]
      exact collectScenarioTypes_nodup props
    · intro k
      rw [hfst]
      exact collectScenarioTypes_mem props k
  · intro hnone
    unfold process_ucp_request_scenarios
    rw [hnone]
  · intro props hprops hempty
    unfold process_ucp_request_scenarios
    rw [hprops]
    dsimp only
    rw [if_pos (by simp [List.isEmpty_iff, hempty])]

/-- Counterexample to claim C6 as stated: (i) a `ucp_request` mapping may
use the key `"base"`, which then appears among the returned scenario
entries (mapped to a modified document, not the input); (ii) a document
whose only mapping-valued annotation is the empty mapping observes no key,
yet the generator returns one `"base"` entry instead of zero entries;
(iii) a document whose `properties` is not a mapping raises instead of
returning the single `"base"` entry. -/
theorem scenario_naming_counterexample :
    process_ucp_request_scenarios
      [("properties", JSON.obj [("p", JSON.obj
        [("ucp_request", JSON.obj [("base", JSON.str "required")])])])]
      "doc" [] "" =
      .ok [("base", [("properties", JSON.obj [("p", JSON.obj [])]),
                     ("required", JSON.arr [JSON.str "p"])])] ∧
    process_ucp_request_scenarios
      [("properties", JSON.obj [("p", JSON.obj [("ucp_request", JSON.obj [])])])]
      "doc" [] "" =
      .ok [("base", [("properties", JSON.obj [("p", JSON.obj
        [("ucp_request", JSON.obj [])])])])] ∧
    process_ucp_request_scenarios [("properties", JSON.num 5)] "doc" [] "" =
      .error pyErrMsg :=
  ⟨rfl, rfl, rfl⟩

/-- Witness for the amended C6 at a concrete one-scenario document. -/
theorem scenario_naming_amended_witness :
    (([("create", [("properties", JSON.obj [("id", JSON.obj [])]),
        ("required", JSON.arr [JSON.str "id"])])] :
      List (String × Dict)).map Prod.fst).Nodup :=
  ((scenario_naming_amended
      [("properties", JSON.obj [("id", JSON.obj
        [("ucp_request", JSON.obj [("create", JSON.str "required")])])])]
      "doc" [] "").1
    [("id", JSON.obj [("ucp_request", JSON.obj [("create", JSON.str "required")])])]
    [("create", [("properties", JSON.obj [("id", JSON.obj [])]),
      ("required", JSON.arr [JSON.str "id"])])]
    rfl rfl (by decide)).1

/-! ### Claim C5 — termination of the Ref Inliner -/

theorem jsize_pos : ∀ j : JSON, 1 ≤ jsize j
  | .null => le_refl 1
  | .bool _ => le_refl 1
  | .num _ => le_refl 1
  | .str _ => le_refl 1
  | .arr _ => by simp [jsize]
  | .obj _ => by simp [jsize]

theorem jsize_mem_obj_aux : ∀ (kvs : List (String × JSON)) (p : String × JSON),
    p ∈ kvs → jsize p.2 < 1 + jsizeObj kvs
  | [], p, h => by cases h
  | q :: rest, p, h => by
    rcases List.mem_cons.mp h with he | h'
    · subst he
      simp [jsizeObj]
      omega
    · have := jsize_mem_obj_aux rest p h'
      simp [jsizeObj]
      omega

theorem jsize_mem_obj {kvs : List (String × JSON)} {p : String × JSON}
    (h : p ∈ kvs) : jsize p.2 < jsize (JSON.obj kvs) := by
  rw [jsize]
  exact jsize_mem_obj_aux kvs p h

theorem jsize_mem_arr_aux : ∀ (l : List JSON) (x : JSON),
    x ∈ l → jsize x < 1 + jsizeArr l
  | [], x, h => by cases h
  | y :: rest, x, h => by
    rcases List.mem_cons.mp h with he | h'
    · subst he
      simp [jsizeArr]
      omega
    · have := jsize_mem_arr_aux rest x h'
      simp [jsizeArr]
      omega

theorem jsize_mem_arr {l : List JSON} {x : JSON} (h : x ∈ l) :
    jsize x < jsize (JSON.arr l) := by
  rw [jsize]
  exact jsize_mem_arr_aux l x h

theorem maxDefSize_lookup : ∀ (defs : Dict) (name : String) (body : JSON),
    dlookup defs name = some body → jsize body ≤ maxDefSize defs
  | [], _, _, h => by simp [dlookup] at h
  | q :: rest, name, body, h => by
    unfold maxDefSize
    rw [List.foldr_cons]
    by_cases hq : q.1 = name
    · simp [dlookup, hq] at h
      rw [h]
      exact le_max_left _ _
    · simp [dlookup, hq] at h
      exact le_trans (maxDefSize_lookup rest name body h) (le_max_right _ _)

theorem filter_impl_length_le {p q : String → Bool} :
    ∀ l : List String, (∀ a, p a = true → q a = true) →
    (l.filter p).length ≤ (l.filter q).length
  | [], _ => le_refl 0
  | x :: rest, h => by
    by_cases hp : p x = true
    · rw [List.filter_cons, if_pos hp, List.filter_cons, if_pos (h x hp)]
      simpa using filter_impl_length_le rest h
    · rw [List.filter_cons, if_neg hp, List.filter_cons]
      by_cases hq : q x = true
      · rw [if_pos hq]
        exact le_trans (filter_impl_length_le rest h) (by simp)
      · rw [if_neg hq]
        exact filter_impl_length_le rest h

theorem filter_guard_length_lt :
    ∀ (l : List String) (name : String) (processed : List String),
    l.Nodup → name ∈ l → processed.contains name = false →
    (l.filter (fun k => !((name :: processed).contains k))).length <
      (l.filter (fun k => !(processed.contains k))).length
  | [], name, processed, _, hm, _ => by cases hm
  | x :: rest, name, processed, hnd, hm, hnp => by
    have hnd1 := (List.nodup_cons.mp hnd).1
    have hnd2 := (List.nodup_cons.mp hnd).2
    by_cases hx : x = name
    · subst hx
      have h1 : (!((x :: processed).contains x)) = false := by
        simp [List.contains_cons]
      have h2 : (!(processed.contains x)) = true := by
        rw [hnp]
        rfl
      rw [List.filter_cons, h1, List.filter_cons, h2]
      simp only [Bool.false_eq_true, if_false, if_true]
      have hle : (rest.filter (fun k => !((x :: processed).contains k))).length ≤
          (rest.filter (fun k => !(processed.contains k))).length := by
        apply filter_impl_length_le
        intro a ha
        simp [List.contains_cons] at ha ⊢
        exact ha.2
      simpa using Nat.lt_succ_of_le hle
    · have hm' : name ∈ rest := by
        rcases List.mem_cons.mp hm with he | h'
        · exact absurd he.symm hx
        · exact h'
      have hxname : (x == name) = false := by
        simp
        exact hx
      have heq : (!((name :: processed).contains x)) = (!(processed.contains x)) := by
        rw [List.contains_cons, hxname]
        simp
      rw [List.filter_cons, List.filter_cons, heq]
      by_cases hpx : (!(processed.contains x)) = true
      · rw [hpx]
        simp only [if_true, List.length_cons]
        have := filter_guard_length_lt rest name processed hnd2 hm' hnp
        omega
      · have hpx' : (!(processed.contains x)) = false := by
          cases hb : (!(processed.contains x))
          · rfl
          · exact absurd hb hpx
        rw [hpx']
        simp only [Bool.false_eq_true, if_false]
        exact filter_guard_length_lt rest name processed hnd2 hm' hnp

theorem defsKeysLeft_decrease (defs : Dict) (name : String)
    (processed : List String) (hc : dContains defs name = true)
    (hnp : processed.contains name = false) :
    defsKeysLeft defs (name :: processed) < defsKeysLeft defs processed := by
  unfold defsKeysLeft
  apply filter_guard_length_lt
  · exact List.nodup_dedup _
  · obtain ⟨v, hv⟩ := dContains_eq_true_iff.mp hc
    exact List.mem_dedup.mpr (mem_dkeys_of_dlookup defs name v hv)
  · exact hnp

theorem measure_expand_lt (obj body : JSON) (defs : Dict) (name : String)
    (processed : List String) (hc : dContains defs name = true)
    (hnp : processed.contains name = false)
    (hbody : dlookup defs name = some body) :
    inlineMeasure body defs (name :: processed) <
      inlineMeasure obj defs processed := by
  unfold inlineMeasure
  have hD := defsKeysLeft_decrease defs name processed hc hnp
  have hM := maxDefSize_lookup defs name body hbody
  have hI := jsize_pos obj
  set D' := defsKeysLeft defs (name :: processed) with hD'
  set D := defsKeysLeft defs processed with hDD
  set M := maxDefSize defs with hMM
  have h1 : D' ≤ D - 1 := Nat.le_pred_of_lt hD
  have h2 : D' * (M + 1) ≤ (D - 1) * (M + 1) := Nat.mul_le_mul_right _ h1
  have h3 : (D - 1) * (M + 1) = D * (M + 1) - (M + 1) := Nat.sub_one_mul D (M + 1)
  have h4 : M + 1 ≤ D * (M + 1) := by
    have hD1 : 1 ≤ D := Nat.one_le_iff_ne_zero.mpr (by omega)
    calc M + 1 = 1 * (M + 1) := (Nat.one_mul _).symm
      _ ≤ D * (M + 1) := Nat.mul_le_mul_right _ hD1
  omega

theorem except_map_ne_error {α β : Type} (x : Except String α) (g : α → β)
    (e : String) (h : x ≠ .error e) : Except.map g x ≠ .error e := by
  cases x with
  | error e' =>
    intro hh
    simp [Except.map] at hh
    exact h (by rw [hh])
  | ok a =>
    intro hh
    simp [Except.map] at hh

theorem mapM_ne_error {α β : Type} (e : String) :
    ∀ (l : List α) (f : α → Except String β),
    (∀ x ∈ l, f x ≠ .error e) → mapMExcept f l ≠ .error e
  | [], f, _ => by simp [mapMExcept]
  | x :: rest, f, h => by
    simp only [mapMExcept]
    cases hf : f x with
    | error e2 =>
      simp only [except_bind_error_eq]
      intro hh
      injection hh with he
      exact h x (List.mem_cons_self _ _) (by rw [hf, he])
    | ok a =>
      simp only [except_bind_ok_eq]
      cases hr : mapMExcept f rest with
      | error e2 =>
        simp only [except_bind_error_eq]
        intro hh
        injection hh with he
        exact mapM_ne_error e rest f
          (fun y hy => h y (List.mem_cons_of_mem _ hy)) (by rw [hr, he])
      | ok xs =>
        simp

theorem exceptOk_ne_error {α : Type} (a : α) (e : String) :
    (Except.ok a : Except String α) ≠ .error e := fun h => Except.noConfusion h

theorem pyErr_ne_fuelErr : (Except.error pyErrMsg : Except String JSON) ≠
    .error fuelErrMsg := by
  intro hh
  injection hh with he
  exact absurd he (by decide)

theorem inlineF_no_fuelErr : ∀ (fuel : Nat) (obj : JSON) (defs : Dict)
    (processed : List String), inlineMeasure obj defs processed < fuel →
    inlineF fuel obj defs processed ≠ .error fuelErrMsg := by
  intro fuel
  induction fuel with
  | zero =>
    intro obj defs processed h
    omega
  | succ n ih =>
    intro obj defs processed hm
    match obj with
    | JSON.null => exact exceptOk_ne_error _ _
    | JSON.bool b => exact exceptOk_ne_error _ _
    | JSON.num x => exact exceptOk_ne_error _ _
    | JSON.str s => exact exceptOk_ne_error _ _
    | JSON.arr elems =>
      simp only [inlineF]
      apply except_map_ne_error
      apply mapM_ne_error
      intro x hx
      apply ih
      have h1 := jsize_mem_arr hx
      unfold inlineMeasure at hm ⊢
      omega
    | JSON.obj kvs =>
      simp only [inlineF]
      by_cases hcond : (dContains kvs "$ref" && (kvs.length == 1)) = true
      · rw [if_pos hcond]
        match hv : (dlookup kvs "$ref").getD JSON.null with
        | JSON.str r =>
          dsimp only
          by_cases hs : sStartsWith r "#/$defs/"
          · rw [if_pos hs]
            by_cases hg : (!(processed.contains (sLastSlashComponent r)) &&
                dContains defs (sLastSlashComponent r)) = true
            · rw [if_pos hg]
              have hgc := (Bool.and_eq_true _ _).mp hg
              have hnp : processed.contains (sLastSlashComponent r) = false := by
                cases hb : processed.contains (sLastSlashComponent r)
                · rfl
                · rw [hb] at hgc
                  simp at hgc
              obtain ⟨body, hbody⟩ := dContains_eq_true_iff.mp hgc.2
              rw [hbody]
              simp only [Option.getD_some]
              apply ih
              have hlt := measure_expand_lt (JSON.obj kvs) body defs
                (sLastSlashComponent r) processed hgc.2 hnp hbody
              omega
            · rw [if_neg hg]
              exact exceptOk_ne_error _ _
          · rw [if_neg hs]
            exact exceptOk_ne_error _ _
        | JSON.null => exact pyErr_ne_fuelErr
        | JSON.bool b2 => exact pyErr_ne_fuelErr
        | JSON.num n2 => exact pyErr_ne_fuelErr
        | JSON.arr l2 => exact pyErr_ne_fuelErr
        | JSON.obj o2 => exact pyErr_ne_fuelErr
      · rw [if_neg hcond]
        apply except_map_ne_error
        apply mapM_ne_error
        intro p hp
        apply except_map_ne_error
        apply ih
        have h1 := jsize_mem_obj hp
        unfold inlineMeasure at hm ⊢
        omega

theorem mapM_congr {A B : Type} : ∀ (l : List A) (f g : A → Except String B),
    (∀ x ∈ l, f x = g x) → mapMExcept f l = mapMExcept g l
  | [], _, _, _ => rfl
  | x :: rest, f, g, h => by
    simp only [mapMExcept]
    rw [h x (List.mem_cons_self _ _),
      mapM_congr rest f g (fun y hy => h y (List.mem_cons_of_mem _ hy))]

theorem inlineF_stable : ∀ (n : Nat) (obj : JSON) (defs : Dict)
    (processed : List String) (m : Nat),
    inlineMeasure obj defs processed < n →
    inlineMeasure obj defs processed < m →
    inlineF n obj defs processed = inlineF m obj defs processed := by
  intro n
  induction n using Nat.strong_induction_on with
  | _ n ih =>
    intro obj defs processed m hn hm
    match n, m with
    | 0, _ => omega
    | _+1, 0 => omega
    | n'+1, m'+1 =>
      match obj with
      | JSON.null => rfl
      | JSON.bool b => rfl
      | JSON.num x => rfl
      | JSON.str s => rfl
      | JSON.arr elems =>
        simp only [inlineF]
        congr 1
        apply mapM_congr
        intro x hx
        have hsz := jsize_mem_arr hx
        apply ih n' (Nat.lt_succ_self n') x defs processed m'
        · unfold inlineMeasure at hn ⊢
          omega
        · unfold inlineMeasure at hm ⊢
          omega
      | JSON.obj kvs =>
        simp only [inlineF]
        by_cases hcond : (dContains kvs "$ref" && (kvs.length == 1)) = true
        · simp only [if_pos hcond]
          match hv : (dlookup kvs "$ref").getD JSON.null with
          | JSON.str r =>
            dsimp only
            by_cases hs : sStartsWith r "#/$defs/"
            · simp only [if_pos hs]
              by_cases hg : (!(processed.contains (sLastSlashComponent r)) &&
                  dContains defs (sLastSlashComponent r)) = true
              · simp only [if_pos hg]
                have hgc := (Bool.and_eq_true _ _).mp hg
                have hnp : processed.contains (sLastSlashComponent r) = false := by
                  cases hb : processed.contains (sLastSlashComponent r)
                  · rfl
                  · rw [hb] at hgc
                    simp at hgc
                obtain ⟨body, hbody⟩ := dContains_eq_true_iff.mp hgc.2
                rw [hbody]
                simp only [Option.getD_some]
                have hlt := measure_expand_lt (JSON.obj kvs) body defs
                  (sLastSlashComponent r) processed hgc.2 hnp hbody
                apply ih n' (Nat.lt_succ_self n') body defs _ m'
                · omega
                · omega
              · simp only [if_neg hg]
            · simp only [if_neg hs]
          | JSON.null => rfl
          | JSON.bool b2 => rfl
          | JSON.num n2 => rfl
          | JSON.arr l2 => rfl
          | JSON.obj o2 => rfl
        · simp only [if_neg hcond]
          congr 1
          apply mapM_congr
          intro p hp
          have hsz := jsize_mem_obj hp
          congr 1
          apply ih n' (Nat.lt_succ_self n') p.2 defs processed m'
          · unfold inlineMeasure at hn ⊢
            omega
          · unfold inlineMeasure at hm ⊢
            omega

/-- Claim C5: the ref-inlining recursion terminates on every finite input,
cyclic and mutually recursive definitions included.  First conjunct: with
the measure-derived recursion budget the `fuelErrMsg` branch of the model
is unreachable, i.e. the recursion always bottoms out.  Second conjunct:
the cycle guard — a pure-reference node whose target definition name is
already in the in-progress expansion set is returned unchanged (the
innermost cyclic reference stays unexpanded).  Third conjunct: expansion
adds the name to the set before recursing into the definition body — the
result on a pure-reference node equals the inliner applied to the body
with the name pushed onto the expansion set. -/
theorem inline_terminates_cycle_guard :
    (∀ (obj : JSON) (defs : Dict) (processed : List String),
      inline_internal_refs obj defs processed ≠ .error fuelErrMsg) ∧
    (∀ (defs : Dict) (processed : List String) (r : String),
      sStartsWith r "#/$defs/" = true →
      processed.contains (sLastSlashComponent r) = true →
      inline_internal_refs (JSON.obj [("$ref", JSON.str r)]) defs processed =
        .ok (JSON.obj [("$ref", JSON.str r)])) ∧
    (∀ (defs : Dict) (processed : List String) (r : String) (body : JSON),
      sStartsWith r "#/$defs/" = true →
      processed.contains (sLastSlashComponent r) = false →
      dlookup defs (sLastSlashComponent r) = some body →
      inline_internal_refs (JSON.obj [("$ref", JSON.str r)]) defs processed =
        inline_internal_refs body defs (sLastSlashComponent r :: processed)) := by
  refine ⟨?_, ?_, ?_⟩
  · intro obj defs processed
    exact inlineF_no_fuelErr _ obj defs processed (Nat.lt_succ_self _)
  · intro defs processed r hs hcontains
    unfold inline_internal_refs
    simp [inlineF, dContains, dlookup, hs, hcontains]
    intro hnot
    exact absurd (strListContains_iff.mp hcontains) hnot
  · intro defs processed r body hs hnp hbody
    have hdc : dContains defs (sLastSlashComponent r) = true := by
      unfold dContains
      rw [hbody]
      rfl
    have hstep : inline_internal_refs (JSON.obj [("$ref", JSON.str r)]) defs processed =
        inlineF (inlineMeasure (JSON.obj [("$ref", JSON.str r)]) defs processed)
          body defs (sLastSlashComponent r :: processed) := by
      unfold inline_internal_refs
      simp [inlineF, dContains, dlookup, hs, hnp, hbody]
      intro hmem
      rw [strListContains_iff.mpr hmem] at hnp
      cases hnp
    rw [hstep]
    unfold inline_internal_refs
    have hlt := measure_expand_lt (JSON.obj [("$ref", JSON.str r)]) body defs
      (sLastSlashComponent r) processed hdc hnp hbody
    apply inlineF_stable
    · exact hlt
    · exact Nat.lt_succ_self _

/-- Witness for C5 on a concrete cyclic definitions mapping
(`A` references itself): the cycle guard leaves the inner reference
unexpanded and the run terminates without the fuel error. -/
theorem inline_terminates_cycle_guard_witness :
    inline_internal_refs (JSON.obj [("$ref", JSON.str "#/$defs/A")])
      [("A", JSON.obj [("$ref", JSON.str "#/$defs/A")])] ["A"] =
      .ok (JSON.obj [("$ref", JSON.str "#/$defs/A")]) ∧
    inline_internal_refs (JSON.obj [("$ref", JSON.str "#/$defs/A")])
      [("A", JSON.obj [("$ref", JSON.str "#/$defs/A")])] [] ≠
      .error fuelErrMsg :=
  ⟨inline_terminates_cycle_guard.2.1
      [("A", JSON.obj [("$ref", JSON.str "#/$defs/A")])] ["A"] "#/$defs/A" rfl rfl,
   inline_terminates_cycle_guard.1 (JSON.obj [("$ref", JSON.str "#/$defs/A")])
      [("A", JSON.obj [("$ref", JSON.str "#/$defs/A")])] []⟩

/-! ### Claim C3 — AllOf Flattener and reachable properties -/

theorem mem_dkeys_dinsert_old {d : Dict} {k x : String} {v : JSON}
    (h : x ∈ dkeys d) : x ∈ dkeys (dinsert d k v) := by
  by_cases hx : x = k
  · subst hx
    exact mem_dkeys_of_dlookup _ _ _ (dlookup_dinsert_self d x v)
  · obtain ⟨w, hw⟩ := dlookup_isSome_of_mem_dkeys d x h
    exact mem_dkeys_of_dlookup _ _ w (by rw [dlookup_dinsert_ne d k x v hx]; exact hw)

theorem mem_dkeys_dinsert_new (d : Dict) (k : String) (v : JSON) :
    k ∈ dkeys (dinsert d k v) :=
  mem_dkeys_of_dlookup _ _ _ (dlookup_dinsert_self d k v)

theorem dictUpdate_mem_left : ∀ (pv pm : Dict) (x : String),
    x ∈ dkeys pm → x ∈ dkeys (dictUpdate pm pv)
  | [], _, _, h => h
  | q :: pv', pm, x, h => by
    unfold dictUpdate at *
    rw [List.foldl_cons]
    exact dictUpdate_mem_left pv' _ x (mem_dkeys_dinsert_old h)

theorem dictUpdate_mem_right : ∀ (pv pm : Dict) (x : String),
    x ∈ dkeys pv → x ∈ dkeys (dictUpdate pm pv)
  | [], _, _, h => by cases h
  | q :: pv', pm, x, h => by
    unfold dictUpdate at *
    rw [List.foldl_cons]
    rw [dkeys_cons] at h
    rcases List.mem_cons.mp h with he | h'
    · subst he
      exact dictUpdate_mem_left pv' _ _ (mem_dkeys_dinsert_new pm _ q.2)
    · exact dictUpdate_mem_right pv' _ x h'

/-- `mergeKV` never loses the `properties` mapping and never shrinks its
key set. -/
theorem mergeKV_props_mono {m m' : Dict} {kv : String × JSON} {mk : Dict}
    (hok : mergeKV m kv = .ok m')
    (hm : dlookup m "properties" = some (JSON.obj mk)) :
    ∃ mk', dlookup m' "properties" = some (JSON.obj mk') ∧
      ∀ x ∈ dkeys mk, x ∈ dkeys mk' := by
  have hcont : dContains m "properties" = true := by
    unfold dContains
    rw [hm]
    rfl
  unfold mergeKV at hok
  by_cases h1 : (kv.1 == "properties" && dContains m "properties") = true
  · rw [if_pos h1] at hok
    rw [hm] at hok
    match hv : kv.2 with
    | JSON.obj pv =>
      rw [hv] at hok
      dsimp only at hok
      cases hok
      exact ⟨dictUpdate mk pv, dlookup_dinsert_self _ _ _,
        fun x hx => dictUpdate_mem_left pv mk x hx⟩
    | JSON.null => rw [hv] at hok; cases hok
    | JSON.bool b => rw [hv] at hok; cases hok
    | JSON.num n => rw [hv] at hok; cases hok
    | JSON.str s => rw [hv] at hok; cases hok
    | JSON.arr l => rw [hv] at hok; cases hok
  · rw [if_neg h1] at hok
    have hk1 : ¬ (kv.1 = "properties") := by
      intro he
      apply h1
      rw [he]
      simp [hcont]
    by_cases h2 : (kv.1 == "required" && dContains m "required") = true
    · rw [if_pos h2] at hok
      have hk1r : kv.1 = "required" := by
        have := (Bool.and_eq_true _ _).mp h2
        exact beq_iff_eq.mp this.1
      match hlr : dlookup m "required", hv : kv.2 with
      | some (JSON.arr ra), JSON.arr rb =>
        rw [hlr, hv] at hok
        dsimp only at hok
        obtain ⟨s, hset, hmap⟩ := exceptMapOk hok
        rw [← hmap]
        refine ⟨mk, ?_, fun x hx => hx⟩
        rw [dlookup_dinsert_ne _ _ _ _ (by decide)]
        exact hm
      | some JSON.null, _ => rw [hlr] at hok; dsimp only at hok; cases hok
      | some (JSON.bool b), _ => rw [hlr] at hok; dsimp only at hok; cases hok
      | some (JSON.num n), _ => rw [hlr] at hok; dsimp only at hok; cases hok
      | some (JSON.str s), _ => rw [hlr] at hok; dsimp only at hok; cases hok
      | some (JSON.obj o), _ => rw [hlr] at hok; dsimp only at hok; cases hok
      | none, _ => rw [hlr] at hok; dsimp only at hok; cases hok
      | some (JSON.arr ra), JSON.null => rw [hlr, hv] at hok; dsimp only at hok; cases hok
      | some (JSON.arr ra), JSON.bool b => rw [hlr, hv] at hok; dsimp only at hok; cases hok
      | some (JSON.arr ra), JSON.num n => rw [hlr, hv] at hok; dsimp only at hok; cases hok
      | some (JSON.arr ra), JSON.str s => rw [hlr, hv] at hok; dsimp only at hok; cases hok
      | some (JSON.arr ra), JSON.obj o => rw [hlr, hv] at hok; dsimp only at hok; cases hok
    · rw [if_neg h2] at hok
      by_cases h3 : (!(kv.1 == "title") && !(kv.1 == "description") &&
          !(kv.1 == "allOf")) = true
      · rw [if_pos h3] at hok
        cases hok
        refine ⟨mk, ?_, fun x hx => hx⟩
        rw [dlookup_dinsert_ne _ _ _ _ (fun he => hk1 he.symm)]
        exact hm
      · rw [if_neg h3] at hok
        cases hok
        exact ⟨mk, hm, fun x hx => hx⟩

theorem mergeResolvedFold_props_mono :
    ∀ (kvs : List (String × JSON)) (m m' : Dict) (mk : Dict),
    foldlMExcept mergeKV m kvs = .ok m' →
    dlookup m "properties" = some (JSON.obj mk) →
    ∃ mk', dlookup m' "properties" = some (JSON.obj mk') ∧
      ∀ x ∈ dkeys mk, x ∈ dkeys mk'
  | [], m, m', mk, hok, hm => by
    cases hok
    exact ⟨mk, hm, fun x hx => hx⟩
  | kv :: rest, m, m', mk, hok, hm => by
    simp only [foldlMExcept] at hok
    obtain ⟨m1, h1, h2⟩ := exceptBindOk hok
    obtain ⟨mk1, hmk1, hsub1⟩ := mergeKV_props_mono h1 hm
    obtain ⟨mk', hmk', hsub2⟩ := mergeResolvedFold_props_mono rest m1 m' mk1 h2 hmk1
    exact ⟨mk', hmk', fun x hx => hsub2 x (hsub1 x hx)⟩

/-- The first `properties` entry of a merged element is absorbed into the
accumulator's `properties` key set. -/
theorem mergeResolvedFold_absorb :
    ∀ (kvs : List (String × JSON)) (m m' : Dict) (pv : Dict),
    foldlMExcept mergeKV m kvs = .ok m' →
    dlookup kvs "properties" = some (JSON.obj pv) →
    ∃ mk', dlookup m' "properties" = some (JSON.obj mk') ∧
      ∀ x ∈ dkeys pv, x ∈ dkeys mk'
  | [], m, m', pv, hok, hl => by simp [dlookup] at hl
  | kv :: rest, m, m', pv, hok, hl => by
    simp only [foldlMExcept] at hok
    obtain ⟨m1, h1, h2⟩ := exceptBindOk hok
    by_cases hk : kv.1 = "properties"
    · simp only [dlookup, if_pos hk] at hl
      have hkv : kv = ("properties", JSON.obj pv) := by
        cases kv
        simp_all
    
      rw [hkv] at h1
      unfold mergeKV at h1
      by_cases hc : dContains m "properties" = true
      · rw [if_pos (by simp [hc])] at h1
        match hlm : dlookup m "properties" with
        | some (JSON.obj pm) =>
          rw [hlm] at h1
          dsimp only at h1
          cases h1
          obtain ⟨mk', hmk', hsub⟩ := mergeResolvedFold_props_mono rest _ m' _ h2
            (dlookup_dinsert_self _ _ _)
          exact ⟨mk', hmk', fun x hx =>
            hsub x (dictUpdate_mem_right pv pm x hx)⟩
        | some JSON.null => rw [hlm] at h1; dsimp only at h1; cases h1
        | some (JSON.bool b) => rw [hlm] at h1; dsimp only at h1; cases h1
        | some (JSON.num n) => rw [hlm] at h1; dsimp only at h1; cases h1
        | some (JSON.str s) => rw [hlm] at h1; dsimp only at h1; cases h1
        | some (JSON.arr l) => rw [hlm] at h1; dsimp only at h1; cases h1
        | none =>
          exfalso
          rw [dContains_eq_false_iff.mpr hlm] at hc
          cases hc
      · have hcf : dContains m "properties" = false := by
          cases hb : dContains m "properties"
          · rfl
          · exact absurd hb hc
        rw [if_neg (by simp [hcf])] at h1
        have hb2 : ¬ ((("properties", JSON.obj pv).1 == "required" &&
            dContains m "required") = true) := by
          intro hcon
          have hcc := (Bool.and_eq_true _ _).mp hcon
          have hc1 : (("properties" : String) == "required") = true := hcc.1
          exact absurd (beq_iff_eq.mp hc1) (by decide)
        have hb3 : (!(("properties", JSON.obj pv).1 == "title") &&
            !(("properties", JSON.obj pv).1 == "description") &&
            !(("properties", JSON.obj pv).1 == "allOf")) = true := by
          show (!(("properties" : String) == "title") &&
            !(("properties" : String) == "description") &&
            !(("properties" : String) == "allOf")) = true
          decide
        rw [if_neg hb2, if_pos hb3] at h1
        cases h1
        obtain ⟨mk', hmk', hsub⟩ := mergeResolvedFold_props_mono rest _ m' _ h2
          (dlookup_dinsert_self _ _ _)
        exact ⟨mk', hmk', fun x hx => hsub x hx⟩
    · simp only [dlookup, if_neg hk] at hl
      exact mergeResolvedFold_absorb rest m1 m' pv h2 hl

theorem mergeResolved_props_mono {m m' : Dict} {res : JSON} {mk : Dict}
    (hok : mergeResolved m res = .ok m')
    (hm : dlookup m "properties" = some (JSON.obj mk)) :
    ∃ mk', dlookup m' "properties" = some (JSON.obj mk') ∧
      ∀ x ∈ dkeys mk, x ∈ dkeys mk' := by
  unfold mergeResolved at hok
  match res with
  | JSON.obj kvs => exact mergeResolvedFold_props_mono kvs m m' mk hok hm
  | JSON.null => cases hok
  | JSON.bool b => cases hok
  | JSON.num n => cases hok
  | JSON.str s => cases hok
  | JSON.arr l => cases hok

theorem flattenItems_mono : ∀ (items : List JSON) (cur m m' : Dict) (mk : Dict),
    foldlMExcept (fun m item =>
      (inline_internal_refs item cur []).bind (mergeResolved m)) m items = .ok m' →
    dlookup m "properties" = some (JSON.obj mk) →
    ∃ mk', dlookup m' "properties" = some (JSON.obj mk') ∧
      ∀ x ∈ dkeys mk, x ∈ dkeys mk'
  | [], cur, m, m', mk, hok, hm => by
    cases hok
    exact ⟨mk, hm, fun x hx => hx⟩
  | it :: rest, cur, m, m', mk, hok, hm => by
    simp only [foldlMExcept] at hok
    obtain ⟨m1, h1, h2⟩ := exceptBindOk hok
    obtain ⟨res, hres, hmerge⟩ := exceptBindOk h1
    obtain ⟨mk1, hmk1, hsub1⟩ := mergeResolved_props_mono hmerge hm
    obtain ⟨mk', hmk', hsub2⟩ := flattenItems_mono rest cur m1 m' mk1 h2 hmk1
    exact ⟨mk', hmk', fun x hx => hsub2 x (hsub1 x hx)⟩

theorem flattenItems_absorb : ∀ (items : List JSON) (cur m m' : Dict)
    (item : JSON) (rkvs pk : Dict),
    foldlMExcept (fun m item =>
      (inline_internal_refs item cur []).bind (mergeResolved m)) m items = .ok m' →
    item ∈ items →
    inline_internal_refs item cur [] = .ok (JSON.obj rkvs) →
    dlookup rkvs "properties" = some (JSON.obj pk) →
    ∃ mk', dlookup m' "properties" = some (JSON.obj mk') ∧
      ∀ x ∈ dkeys pk, x ∈ dkeys mk'
  | [], _, _, _, _, _, _, _, hmem, _, _ => by cases hmem
  | it :: rest, cur, m, m', item, rkvs, pk, hok, hmem, hinl, hpk => by
    simp only [foldlMExcept] at hok
    obtain ⟨m1, h1, h2⟩ := exceptBindOk hok
    obtain ⟨res, hres, hmerge⟩ := exceptBindOk h1
    rcases List.mem_cons.mp hmem with he | hmem'
    · subst he
      rw [hinl] at hres
      injection hres with hres2
      subst hres2
      unfold mergeResolved at hmerge
      obtain ⟨mk1, hmk1, hsub1⟩ := mergeResolvedFold_absorb rkvs m m1 pk hmerge hpk
      obtain ⟨mk', hmk', hsub2⟩ := flattenItems_mono rest cur m1 m' mk1 h2 hmk1
      exact ⟨mk', hmk', fun x hx => hsub2 x (hsub1 x hx)⟩
    · exact flattenItems_absorb rest cur m1 m' item rkvs pk h2 hmem' hinl hpk

theorem dlookup_opt_dinsert_ne (m : Dict) (o : Option JSON) (key k' : String)
    (h : k' ≠ key) :
    dlookup (match o with | some t => dinsert m key t | none => m) k' =
      dlookup m k' := by
  cases o with
  | none => rfl
  | some t => exact dlookup_dinsert_ne m key k' t h

/-- Claim C3 (amended): for a `$defs` entry whose `allOf` has no external
reference, every property name appearing in the top-level `properties` of
an `allOf` element as inlined by the Ref Inliner (against the definitions
state current when the entry is processed) appears as a key of the
flattened entry's `properties` mapping.  Property names reachable only
through a nested `allOf` key of an inlined element are NOT preserved —
`allOf` is on the flattener's skip list — which is where the original
claim fails. -/
theorem flatten_amended (cur cur2 : Dict) (name : String) (body : Dict)
    (a : JSON) (items : List JSON) (item : JSON) (rkvs pk : Dict)
    (hentry : flattenEntry cur (name, JSON.obj body) = .ok cur2)
    (hallof : dlookup body "allOf" = some a)
    (hext : hasExternalRef a = .ok false)
    (hitems : pyIterElems a = .ok items)
    (hitem : item ∈ items)
    (hres : inline_internal_refs item cur [] = .ok (JSON.obj rkvs))
    (hpk : dlookup rkvs "properties" = some (JSON.obj pk)) :
    ∃ merged mk, dlookup cur2 name = some (JSON.obj merged) ∧
      dlookup merged "properties" = some (JSON.obj mk) ∧
      ∀ x ∈ dkeys pk, x ∈ dkeys mk := by
  unfold flattenEntry at hentry
  dsimp only at hentry
  rw [hallof] at hentry
  dsimp only at hentry
  rw [hext] at hentry
  simp only [except_bind_ok_eq, Bool.false_eq_true, if_false] at hentry
  rw [hitems] at hentry
  simp only [except_bind_ok_eq] at hentry
  obtain ⟨merged0, hfold, hpure⟩ := exceptBindOk hentry
  simp only [except_pure_eq] at hpure
  injection hpure with hpure2
  obtain ⟨mk0, hmk0, hsub0⟩ :=
    flattenItems_absorb items cur [] merged0 item rkvs pk hfold hitem hres hpk
  have hM : dlookup (match dlookup body "description" with
      | some dsc => dinsert (match dlookup body "title" with
          | some t => dinsert merged0 "title" t
          | none => merged0) "description" dsc
      | none => (match dlookup body "title" with
          | some t => dinsert merged0 "title" t
          | none => merged0)) "properties" = dlookup merged0 "properties" := by
    rw [dlookup_opt_dinsert_ne _ _ _ _ (by decide),
      dlookup_opt_dinsert_ne _ _ _ _ (by decide)]
  subst hpure2
  exact ⟨_, mk0, dlookup_dinsert_self _ _ _, hM.trans hmk0, hsub0⟩

/-- Counterexample to claim C3 as stated: in
`$defs = {A: {allOf: [ref B]}, B: {allOf: [ref C]}, C: {properties: {x}}}`
the property `x` is transitively reachable from `A`'s `allOf` chain
through `B` (which itself uses `allOf`), yet `A` is flattened to the empty
mapping — it has no `properties` key at all — because the inlined element
body `{allOf: [C-body]}` is dropped by the merge's `allOf` skip. -/
theorem flatten_claim_counterexample :
    flatten_allof_in_defs
      [("$defs", JSON.obj
        [("A", JSON.obj [("allOf",
          JSON.arr [JSON.obj [("$ref", JSON.str "#/$defs/B")]])]),
         ("B", JSON.obj [("allOf",
          JSON.arr [JSON.obj [("$ref", JSON.str "#/$defs/C")]])]),
         ("C", JSON.obj [("properties",
          JSON.obj [("x", JSON.obj [("type", JSON.str "string")])])])])] =
      .ok [("$defs", JSON.obj
        [("A", JSON.obj []),
         ("B", JSON.obj [("properties",
          JSON.obj [("x", JSON.obj [("type", JSON.str "string")])])]),
         ("C", JSON.obj [("properties",
          JSON.obj [("x", JSON.obj [("type", JSON.str "string")])])])])] := rfl

/-- Witness for the amended C3: one-hop inlining into a flattened entry
keeps the `properties` key `x`. -/
theorem flatten_amended_witness :
    ∃ merged mk,
      dlookup [("A", JSON.obj [("properties",
          JSON.obj [("x", JSON.obj [("type", JSON.str "string")])])]),
        ("B", JSON.obj [("properties",
          JSON.obj [("x", JSON.obj [("type", JSON.str "string")])])])] "A" =
        some (JSON.obj merged) ∧
      dlookup merged "properties" = some (JSON.obj mk) ∧
      ∀ x ∈ dkeys [("x", JSON.obj [("type", JSON.str "string")])], x ∈ dkeys mk :=
  flatten_amended
    [("A", JSON.obj [("allOf", JSON.arr [JSON.obj [("$ref", JSON.str "#/$defs/B")]])]),
     ("B", JSON.obj [("properties",
       JSON.obj [("x", JSON.obj [("type", JSON.str "string")])])])]
    [("A", JSON.obj [("properties",
       JSON.obj [("x", JSON.obj [("type", JSON.str "string")])])]),
     ("B", JSON.obj [("properties",
       JSON.obj [("x", JSON.obj [("type", JSON.str "string")])])])]
    "A"
    [("allOf", JSON.arr [JSON.obj [("$ref", JSON.str "#/$defs/B")]])]
    (JSON.arr [JSON.obj [("$ref", JSON.str "#/$defs/B")]])
    [JSON.obj [("$ref", JSON.str "#/$defs/B")]]
    (JSON.obj [("$ref", JSON.str "#/$defs/B")])
    [("properties", JSON.obj [("x", JSON.obj [("type", JSON.str "string")])])]
    [("x", JSON.obj [("type", JSON.str "string")])]
    rfl rfl rfl rfl (List.mem_singleton.mpr rfl) rfl rfl

/-! ### Claim C1 — the required set of a generated scenario -/

/-- All elements of a Python-set model are strings. -/
def allStrs (s : List JSON) : Prop := ∀ x ∈ s, ∃ t, x = JSON.str t

theorem isStrEq_iff (d : JSON) (s : String) : isStrEq d s = true ↔ d = JSON.str s := by
  cases d <;> simp [isStrEq]

theorem pysetMem_str {s : List JSON} (hall : allStrs s) (a : String) :
    pysetMem (JSON.str a) s = true ↔ JSON.str a ∈ s := by
  unfold pysetMem
  rw [List.any_eq_true]
  constructor
  · rintro ⟨y, hy, he⟩
    obtain ⟨t, ht⟩ := hall y hy
    subst ht
    have : a = t := by simpa [pyEqScalar] using he
    subst this
    exact hy
  · intro hy
    exact ⟨JSON.str a, hy, by simp [pyEqScalar]⟩

theorem pysetMem_str_of_mem {s : List JSON} {a : String} (h : JSON.str a ∈ s) :
    pysetMem (JSON.str a) s = true := by
  unfold pysetMem
  rw [List.any_eq_true]
  exact ⟨JSON.str a, h, by simp [pyEqScalar]⟩

theorem pysetAdd_str_mem {s : List JSON} (hall : allStrs s) (x k : String) :
    JSON.str x ∈ pysetAdd s (JSON.str k) ↔ x = k ∨ JSON.str x ∈ s := by
  unfold pysetAdd
  by_cases hm : pysetMem (JSON.str k) s = true
  · rw [if_pos hm]
    have hk : JSON.str k ∈ s := (pysetMem_str hall k).mp hm
    constructor
    · exact Or.inr
    · rintro (he | hi)
      · subst he; exact hk
      · exact hi
  · rw [if_neg hm]
    simp only [List.mem_append, List.mem_singleton]
    constructor
    · rintro (hi | he)
      · exact Or.inr hi
      · exact Or.inl (by injection he)
    · rintro (he | hi)
      · subst he; exact Or.inr rfl
      · exact Or.inl hi

theorem pysetDiscard_str_mem (s : List JSON) (x k : String) :
    JSON.str x ∈ pysetDiscard s (JSON.str k) ↔ x ≠ k ∧ JSON.str x ∈ s := by
  unfold pysetDiscard
  rw [List.mem_filter]
  simp only [pyEqScalar, Bool.not_eq_true']
  constructor
  · rintro ⟨hi, he⟩
    refine ⟨?_, hi⟩
    intro hxk
    subst hxk
    simp at he
  · rintro ⟨hne, hi⟩
    exact ⟨hi, by simp [beq_eq_false_iff_ne]; exact fun e => hne e.symm⟩

theorem allStrs_add {s : List JSON} (hall : allStrs s) (k : String) :
    allStrs (pysetAdd s (JSON.str k)) := by
  unfold pysetAdd
  by_cases hm : pysetMem (JSON.str k) s = true
  · rw [if_pos hm]; exact hall
  · rw [if_neg hm]
    intro x hx
    rcases List.mem_append.mp hx with hi | he
    · exact hall x hi
    · exact ⟨k, List.mem_singleton.mp he⟩

theorem allStrs_discard {s : List JSON} (hall : allStrs s) (j : JSON) :
    allStrs (pysetDiscard s j) := by
  intro x hx
  exact hall x (List.mem_filter.mp hx).1

theorem nodup_add {s : List JSON} (hall : allStrs s) (hnd : s.Nodup) (k : String) :
    (pysetAdd s (JSON.str k)).Nodup := by
  unfold pysetAdd
  by_cases hm : pysetMem (JSON.str k) s = true
  · rw [if_pos hm]; exact hnd
  · rw [if_neg hm]
    refine List.Nodup.append hnd (List.nodup_singleton _) ?_
    intro x hx hx1
    rw [List.mem_singleton] at hx1
    subst hx1
    exact hm (pysetMem_str_of_mem hx)

theorem nodup_discard {s : List JSON} (hnd : s.Nodup) (j : JSON) :
    (pysetDiscard s j).Nodup :=
  List.Nodup.filter _ hnd

theorem setOf_strs : ∀ (bl : List String) (acc : List JSON), allStrs acc → acc.Nodup →
    allStrs ((bl.map JSON.str).foldl pysetAdd acc) ∧
    ((bl.map JSON.str).foldl pysetAdd acc).Nodup ∧
    (∀ x, JSON.str x ∈ (bl.map JSON.str).foldl pysetAdd acc ↔
      JSON.str x ∈ acc ∨ x ∈ bl)
  | [], acc, hall, hnd => ⟨hall, hnd, fun x => by simp⟩
  | b :: bl', acc, hall, hnd => by
    rw [List.map_cons, List.foldl_cons]
    obtain ⟨h1, h2, h3⟩ :=
      setOf_strs bl' (pysetAdd acc (JSON.str b)) (allStrs_add hall b) (nodup_add hall hnd b)
    refine ⟨h1, h2, fun x => ?_⟩
    rw [h3 x, pysetAdd_str_mem hall x b]
    simp only [List.mem_cons]
    tauto

theorem map_str_all_hashable (bl : List String) :
    (bl.map JSON.str).all hashableScalar = true := by
  rw [List.all_eq_true]
  intro x hx
  obtain ⟨t, _, ht⟩ := List.mem_map.mp hx
  subst ht
  rfl

/-- `set(required)` for a string-array `required`. -/
theorem pySetOf_str_arr (bl : List String) :
    pySetOf (JSON.arr (bl.map JSON.str)) = .ok ((bl.map JSON.str).foldl pysetAdd []) := by
  unfold pySetOf pyIterElems
  rw [except_bind_ok_eq]
  rw [if_pos (map_str_all_hashable bl)]
  rfl

theorem mem_filterMap_getStr (l : List JSON) (a : String) :
    a ∈ l.filterMap getStr ↔ JSON.str a ∈ l := by
  rw [List.mem_filterMap]
  constructor
  · rintro ⟨y, hy, he⟩
    cases y <;> simp [getStr] at he
    subst he
    exact hy
  · intro h
    exact ⟨JSON.str a, h, rfl⟩

theorem nodup_filterMap_getStr : ∀ {l : List JSON}, allStrs l → l.Nodup →
    (l.filterMap getStr).Nodup
  | [], _, _ => List.nodup_nil
  | x :: l', hall, hnd => by
    obtain ⟨t, ht⟩ := hall x (List.mem_cons_self x l')
    subst ht
    rw [List.filterMap_cons]
    simp only [getStr]
    rw [List.nodup_cons]
    refine ⟨?_, nodup_filterMap_getStr (fun y hy => hall y (List.mem_cons_of_mem _ hy))
      (List.nodup_cons.mp hnd).2⟩
    intro hmem
    exact (List.nodup_cons.mp hnd).1 ((mem_filterMap_getStr l' t).mp hmem)

theorem charListLe_total : ∀ xs ys : List Char,
    charListLe xs ys = true ∨ charListLe ys xs = true
  | [], _ => Or.inl rfl
  | _ :: _, [] => Or.inr rfl
  | c :: cs, d :: ds => by
    by_cases h : c = d
    · subst h
      rcases charListLe_total cs ds with h1 | h1
      · exact Or.inl (by simp [charListLe, h1])
      · exact Or.inr (by simp [charListLe, h1])
    · have hv : c.val.toNat ≠ d.val.toNat := fun e => h (Char.ext (UInt32.ext e))
      have hdc : ¬ (d = c) := fun e => h e.symm
      rcases Nat.lt_trichotomy c.val.toNat d.val.toNat with hlt | heq | hgt
      · refine Or.inl ?_
        rw [charListLe, if_neg h]
        exact decide_eq_true hlt
      · exact absurd heq hv
      · refine Or.inr ?_
        rw [charListLe, if_neg hdc]
        exact decide_eq_true hgt

theorem charListLe_trans : ∀ xs ys zs : List Char,
    charListLe xs ys = true → charListLe ys zs = true → charListLe xs zs = true
  | [], _, _, _, _ => rfl
  | x :: xs', [], _, hab, _ => by simp [charListLe] at hab
  | x :: xs', y :: ys', [], _, hbc => by simp [charListLe] at hbc
  | x :: xs', y :: ys', z :: zs', hab, hbc => by
    by_cases hxy : x = y
    · subst hxy
      rw [charListLe, if_pos rfl] at hab
      by_cases hyz : x = z
      · subst hyz
        rw [charListLe, if_pos rfl] at hbc ⊢
        exact charListLe_trans _ _ _ hab hbc
      · rw [charListLe, if_neg hyz] at hbc ⊢
        exact hbc
    · rw [charListLe, if_neg hxy] at hab
      have hxyv : x.val.toNat < y.val.toNat := of_decide_eq_true hab
      by_cases hyz : y = z
      · subst hyz
        rw [charListLe, if_neg hxy]
        exact decide_eq_true hxyv
      · rw [charListLe, if_neg hyz] at hbc
        have hyzv : y.val.toNat < z.val.toNat := of_decide_eq_true hbc
        have hxzv : x.val.toNat < z.val.toNat := Nat.lt_trans hxyv hyzv
        have hxz : ¬ (x = z) := fun e => Nat.lt_irrefl _ (e ▸ hxzv)
        rw [charListLe, if_neg hxz]
        exact decide_eq_true hxzv

theorem strLeB_total (a b : String) : strLeB a b = true ∨ strLeB b a = true :=
  charListLe_total a.data b.data

theorem strLeB_trans {a b c : String} (h1 : strLeB a b = true)
    (h2 : strLeB b c = true) : strLeB a c = true :=
  charListLe_trans a.data b.data c.data h1 h2

theorem insertSortedStr_perm (x : String) :
    ∀ l : List String, (insertSortedStr x l).Perm (x :: l)
  | [] => List.Perm.refl _
  | y :: ys => by
    unfold insertSortedStr
    by_cases h : strLeB x y = true
    · rw [if_pos h]
    · rw [if_neg h]
      exact List.Perm.trans (List.Perm.cons y (insertSortedStr_perm x ys))
        (List.Perm.swap x y ys)

theorem sortStrs_perm : ∀ l : List String, (sortStrs l).Perm l
  | [] => List.Perm.refl _
  | x :: xs =>
    List.Perm.trans (insertSortedStr_perm x (sortStrs xs))
      (List.Perm.cons x (sortStrs_perm xs))

theorem insertSortedStr_sorted (x : String) :
    ∀ {l : List String}, List.Sorted (fun a b => strLeB a b = true) l →
      List.Sorted (fun a b => strLeB a b = true) (insertSortedStr x l)
  | [], _ => List.sorted_singleton x
  | y :: ys, hs => by
    unfold insertSortedStr
    by_cases h : strLeB x y = true
    · rw [if_pos h]
      rw [List.sorted_cons]
      refine ⟨?_, hs⟩
      intro b hb
      rcases List.mem_cons.mp hb with he | hi
      · subst he; exact h
      · exact strLeB_trans h ((List.sorted_cons.mp hs).1 b hi)
    · rw [if_neg h]
      rw [List.sorted_cons]
      obtain ⟨hy, hys⟩ := List.sorted_cons.mp hs
      refine ⟨?_, insertSortedStr_sorted x hys⟩
      intro b hb
      have hb' : b = x ∨ b ∈ ys :=
        List.mem_cons.mp ((insertSortedStr_perm x ys).mem_iff.mp hb)
      rcases hb' with he | hi
      · subst he
        rcases strLeB_total y b with h1 | h1
        · exact h1
        · exact absurd h1 h
      · exact hy b hi

theorem sortStrs_sorted : ∀ l : List String,
    List.Sorted (fun a b => strLeB a b = true) (sortStrs l)
  | [] => List.sorted_nil
  | x :: xs => insertSortedStr_sorted x (sortStrs_sorted xs)

/-- `sorted(list(s))` on an all-string set evaluates to the insertion sort
of the underlying strings. -/
theorem pySorted_strs {l : List JSON} (hall : allStrs l) :
    pySorted l = .ok ((sortStrs (l.filterMap getStr)).map JSON.str) := by
  unfold pySorted
  by_cases hlen : l.length ≤ 1
  · rw [if_pos hlen]
    match l, hlen with
    | [], _ => rfl
    | [x], _ =>
      obtain ⟨t, ht⟩ := hall x (List.mem_singleton.mpr rfl)
      subst ht
      rfl
  · rw [if_neg hlen]
    have hstr : l.all isStr = true := by
      rw [List.all_eq_true]
      intro x hx
      obtain ⟨t, ht⟩ := hall x hx
      subst ht
      rfl
    rw [if_pos hstr]

/-- The directive that the per-property loop resolves for `name` in
scenario `sc`: `some` exactly when the property exists, is a mapping and
carries a `ucp_request` annotation (lines 224-236). -/
def resolvedDirective (props : Dict) (sc name : String) : Option JSON :=
  match dlookup props name with
  | some (JSON.obj ps) =>
    match dlookup ps "ucp_request" with
    | some ucp => some (directiveOf ucp sc)
    | none => none
  | _ => none

/-- Spec-side membership condition for the final `required` list: the
resolved directive is `"required"`, or the name was required in the base
document and its resolved directive (when an annotation exists) is neither
`"omit"` nor `"optional"`. -/
def requiredCond (props : Dict) (sc name : String) (baseReq : List String) : Prop :=
  resolvedDirective props sc name = some (JSON.str "required") ∨
  (name ∈ baseReq ∧
    ∀ d, resolvedDirective props sc name = some d →
      d ≠ JSON.str "omit" ∧ d ≠ JSON.str "optional")

theorem step_rf_allStrs {sc : String} {st : ScanState} (p : String × JSON)
    (hall : allStrs st.reqFields) : allStrs (directiveStep sc st p).reqFields := by
  unfold directiveStep
  cases p.2 with
  | obj ps =>
    dsimp only
    cases hu : dlookup ps "ucp_request" with
    | some ucp =>
      dsimp only
      by_cases h1 : isStrEq (directiveOf ucp sc) "omit" = true
      · rw [if_pos h1]; exact allStrs_discard hall _
      · rw [if_neg h1]
        by_cases h2 : isStrEq (directiveOf ucp sc) "required" = true
        · rw [if_pos h2]; exact allStrs_add hall _
        · rw [if_neg h2]
          by_cases h3 : isStrEq (directiveOf ucp sc) "optional" = true
          · rw [if_pos h3]; exact allStrs_discard hall _
          · rw [if_neg h3]; exact hall
    | none => exact hall
  | null => exact hall
  | bool b => exact hall
  | num n => exact hall
  | str s => exact hall
  | arr l => exact hall

theorem step_rf_nodup {sc : String} {st : ScanState} (p : String × JSON)
    (hall : allStrs st.reqFields) (hnd : st.reqFields.Nodup) :
    (directiveStep sc st p).reqFields.Nodup := by
  unfold directiveStep
  cases p.2 with
  | obj ps =>
    dsimp only
    cases hu : dlookup ps "ucp_request" with
    | some ucp =>
      dsimp only
      by_cases h1 : isStrEq (directiveOf ucp sc) "omit" = true
      · rw [if_pos h1]; exact nodup_discard hnd _
      · rw [if_neg h1]
        by_cases h2 : isStrEq (directiveOf ucp sc) "required" = true
        · rw [if_pos h2]; exact nodup_add hall hnd _
        · rw [if_neg h2]
          by_cases h3 : isStrEq (directiveOf ucp sc) "optional" = true
          · rw [if_pos h3]; exact nodup_discard hnd _
          · rw [if_neg h3]; exact hnd
    | none => exact hnd
  | null => exact hnd
  | bool b => exact hnd
  | num n => exact hnd
  | str s => exact hnd
  | arr l => exact hnd

theorem step_rf_other {sc name : String} {st : ScanState} (p : String × JSON)
    (hall : allStrs st.reqFields) (hne : p.1 ≠ name) :
    (JSON.str name ∈ (directiveStep sc st p).reqFields ↔
      JSON.str name ∈ st.reqFields) := by
  have hne' : name ≠ p.1 := fun e => hne e.symm
  unfold directiveStep
  cases p.2 with
  | obj ps =>
    dsimp only
    cases hu : dlookup ps "ucp_request" with
    | some ucp =>
      dsimp only
      by_cases h1 : isStrEq (directiveOf ucp sc) "omit" = true
      · rw [if_pos h1]
        rw [pysetDiscard_str_mem]
        exact ⟨fun h => h.2, fun h => ⟨hne', h⟩⟩
      · rw [if_neg h1]
        by_cases h2 : isStrEq (directiveOf ucp sc) "required" = true
        · rw [if_pos h2]
          rw [pysetAdd_str_mem hall]
          exact ⟨fun h => h.resolve_left (fun e => absurd e hne'), Or.inr⟩
        · rw [if_neg h2]
          by_cases h3 : isStrEq (directiveOf ucp sc) "optional" = true
          · rw [if_pos h3]
            rw [pysetDiscard_str_mem]
            exact ⟨fun h => h.2, fun h => ⟨hne', h⟩⟩
          · rw [if_neg h3]
    | none => exact Iff.rfl
  | null => exact Iff.rfl
  | bool b => exact Iff.rfl
  | num n => exact Iff.rfl
  | str s => exact Iff.rfl
  | arr l => exact Iff.rfl

theorem fold_rf_allStrs (sc : String) : ∀ (props : Dict) (st : ScanState),
    allStrs st.reqFields → allStrs ((props.foldl (directiveStep sc) st).reqFields)
  | [], _, hall => hall
  | p :: props', st, hall => by
    rw [List.foldl_cons]
    exact fold_rf_allStrs sc props' _ (step_rf_allStrs p hall)

theorem fold_rf_nodup (sc : String) : ∀ (props : Dict) (st : ScanState),
    allStrs st.reqFields → st.reqFields.Nodup →
    ((props.foldl (directiveStep sc) st).reqFields).Nodup
  | [], _, _, hnd => hnd
  | p :: props', st, hall, hnd => by
    rw [List.foldl_cons]
    exact fold_rf_nodup sc props' _ (step_rf_allStrs p hall) (step_rf_nodup p hall hnd)

theorem fold_rf_untouched (sc name : String) : ∀ (props : Dict) (st : ScanState),
    allStrs st.reqFields → name ∉ dkeys props →
    (JSON.str name ∈ (props.foldl (directiveStep sc) st).reqFields ↔
      JSON.str name ∈ st.reqFields)
  | [], _, _, _ => Iff.rfl
  | p :: props', st, hall, hnk => by
    rw [dkeys_cons] at hnk
    have h1 : p.1 ≠ name := fun e => hnk (e ▸ List.mem_cons_self _ _)
    have h2 : name ∉ dkeys props' := fun h => hnk (List.mem_cons_of_mem _ h)
    rw [List.foldl_cons]
    rw [fold_rf_untouched sc name props' _ (step_rf_allStrs p hall) h2]
    exact step_rf_other p hall h1

theorem dlookup_cons (p : String × JSON) (rest : Dict) (k : String) :
    dlookup (p :: rest) k = if p.1 = k then some p.2 else dlookup rest k := rfl

/-- Membership in the working `required_fields` set after the per-property
loop, characterised by the resolved directive of the property. -/
theorem fold_rf_mem (sc name : String) : ∀ (props : Dict) (st : ScanState),
    allStrs st.reqFields → (dkeys props).Nodup →
    (JSON.str name ∈ (props.foldl (directiveStep sc) st).reqFields ↔
      resolvedDirective props sc name = some (JSON.str "required") ∨
      (JSON.str name ∈ st.reqFields ∧
        ∀ d, resolvedDirective props sc name = some d →
          d ≠ JSON.str "omit" ∧ d ≠ JSON.str "optional"))
  | [], st, hall, _ => by
    constructor
    · intro h
      exact Or.inr ⟨h, fun d hd => by simp [resolvedDirective, dlookup] at hd⟩
    · rintro (hr | ⟨h, _⟩)
      · simp [resolvedDirective, dlookup] at hr
      · exact h
  | p :: props', st, hall, hnd => by
    rw [dkeys_cons] at hnd
    obtain ⟨hh, hnd'⟩ := List.nodup_cons.mp hnd
    rw [List.foldl_cons]
    by_cases hp : p.1 = name
    · have hkn : name ∉ dkeys props' := hp ▸ hh
      have hstep_all := @step_rf_allStrs sc st p hall
      rw [fold_rf_untouched sc name props' _ hstep_all hkn]
      have hrd0 : resolvedDirective (p :: props') sc name =
          (match p.2 with
           | JSON.obj ps =>
             (match dlookup ps "ucp_request" with
              | some ucp => some (directiveOf ucp sc)
              | none => none)
           | _ => none) := by
        unfold resolvedDirective
        rw [dlookup_cons, if_pos hp]
        cases p.2 <;> rfl
      cases hv : p.2 with
      | obj ps =>
        rw [hv] at hrd0
        dsimp only at hrd0
        unfold directiveStep
        rw [hv]
        dsimp only
        cases hu : dlookup ps "ucp_request" with
        | some ucp =>
          rw [hu] at hrd0
          dsimp only at hrd0
          rw [hrd0]
          dsimp only
          by_cases h1 : isStrEq (directiveOf ucp sc) "omit" = true
          · rw [if_pos h1]
            have hd1 : directiveOf ucp sc = JSON.str "omit" := (isStrEq_iff _ _).mp h1
            dsimp only
            rw [hp, pysetDiscard_str_mem]
            constructor
            · rintro ⟨hne, _⟩
              exact absurd rfl hne
            · rintro (hr | ⟨_, hforall⟩)
              · rw [hd1] at hr
                simp at hr
              · exact absurd hd1 (hforall _ rfl).1
          · rw [if_neg h1]
            by_cases h2 : isStrEq (directiveOf ucp sc) "required" = true
            · rw [if_pos h2]
              have hd2 : directiveOf ucp sc = JSON.str "required" := (isStrEq_iff _ _).mp h2
              dsimp only
              rw [hp, pysetAdd_str_mem hall]
              constructor
              · intro _
                exact Or.inl (by rw [hd2])
              · intro _
                exact Or.inl rfl
            · rw [if_neg h2]
              by_cases h3 : isStrEq (directiveOf ucp sc) "optional" = true
              · rw [if_pos h3]
                have hd3 : directiveOf ucp sc = JSON.str "optional" := (isStrEq_iff _ _).mp h3
                dsimp only
                rw [hp, pysetDiscard_str_mem]
                constructor
                · rintro ⟨hne, _⟩
                  exact absurd rfl hne
                · rintro (hr | ⟨_, hforall⟩)
                  · rw [hd3] at hr
                    simp at hr
                  · exact absurd hd3 (hforall _ rfl).2
              · rw [if_neg h3]
                dsimp only
                constructor
                · intro h
                  refine Or.inr ⟨h, fun d hd => ?_⟩
                  have hdd : directiveOf ucp sc = d := by injection hd
                  subst hdd
                  constructor
                  · intro he
                    exact h1 ((isStrEq_iff _ _).mpr he)
                  · intro he
                    exact h3 ((isStrEq_iff _ _).mpr he)
                · rintro (hr | ⟨h, _⟩)
                  · have hdd : directiveOf ucp sc = JSON.str "required" := by injection hr
                    exact absurd ((isStrEq_iff _ _).mpr hdd) h2
                  · exact h
        | none =>
          rw [hu] at hrd0
          dsimp only at hrd0
          rw [hrd0]
          constructor
          · intro h
            exact Or.inr ⟨h, fun d hd => by cases hd⟩
          · rintro (hr | ⟨h, _⟩)
            · cases hr
            · exact h
      | null =>
        rw [hv] at hrd0
        dsimp only at hrd0
        rw [hrd0]
        unfold directiveStep
        rw [hv]
        dsimp only
        constructor
        · intro h
          exact Or.inr ⟨h, fun d hd => by cases hd⟩
        · rintro (hr | ⟨h, _⟩)
          · cases hr
          · exact h
      | bool b =>
        rw [hv] at hrd0
        dsimp only at hrd0
        rw [hrd0]
        unfold directiveStep
        rw [hv]
        dsimp only
        constructor
        · intro h
          exact Or.inr ⟨h, fun d hd => by cases hd⟩
        · rintro (hr | ⟨h, _⟩)
          · cases hr
          · exact h
      | num n =>
        rw [hv] at hrd0
        dsimp only at hrd0
        rw [hrd0]
        unfold directiveStep
        rw [hv]
        dsimp only
        constructor
        · intro h
          exact Or.inr ⟨h, fun d hd => by cases hd⟩
        · rintro (hr | ⟨h, _⟩)
          · cases hr
          · exact h
      | str s =>
        rw [hv] at hrd0
        dsimp only at hrd0
        rw [hrd0]
        unfold directiveStep
        rw [hv]
        dsimp only
        constructor
        · intro h
          exact Or.inr ⟨h, fun d hd => by cases hd⟩
        · rintro (hr | ⟨h, _⟩)
          · cases hr
          · exact h
      | arr l =>
        rw [hv] at hrd0
        dsimp only at hrd0
        rw [hrd0]
        unfold directiveStep
        rw [hv]
        dsimp only
        constructor
        · intro h
          exact Or.inr ⟨h, fun d hd => by cases hd⟩
        · rintro (hr | ⟨h, _⟩)
          · cases hr
          · exact h
    · have hrd : resolvedDirective (p :: props') sc name =
          resolvedDirective props' sc name := by
        unfold resolvedDirective
        rw [dlookup_cons, if_neg hp]
      rw [fold_rf_mem sc name props' _ (step_rf_allStrs p hall) hnd']
      rw [hrd, step_rf_other p hall hp]

theorem updateRefsArr_strs (sc : String) (sws : List String) (dir : String) :
    ∀ l : List String, updateRefsArr (l.map JSON.str) sc sws dir = l.map JSON.str
  | [] => rfl
  | s :: l' => by
    rw [List.map_cons]
    rw [updateRefsArr]
    rw [updateRefsArr_strs sc sws dir l']
    rfl

theorem update_refs_str_arr (sc : String) (sws : List String) (dir : String)
    (l : List String) :
    update_refs_for_scenario (JSON.arr (l.map JSON.str)) sc sws dir =
      JSON.arr (l.map JSON.str) := by
  unfold update_refs_for_scenario
  rw [updateRefsArr_strs]

theorem updateRefsEntries_dlookup (sc : String) (sws : List String) (dir k : String)
    (hk : k ≠ "$ref") : ∀ kvs : List (String × JSON),
    dlookup (updateRefsEntries kvs sc sws dir) k =
      (dlookup kvs k).map (fun v => update_refs_for_scenario v sc sws dir)
  | [] => rfl
  | (k0, v) :: rest => by
    by_cases h0 : k0 = "$ref"
    · subst h0
      have hne : ¬ (("$ref" : String) = k) := fun e => hk e.symm
      cases v with
      | str s =>
        rw [updateRefsEntries]
        rw [if_pos rfl]
        rw [dlookup_cons, dlookup_cons]
        dsimp only
        rw [if_neg hne, if_neg hne]
        exact updateRefsEntries_dlookup sc sws dir k hk rest
      | null =>
        rw [updateRefsEntries, if_pos rfl, dlookup_cons, dlookup_cons]
        dsimp only
        rw [if_neg hne, if_neg hne]
        exact updateRefsEntries_dlookup sc sws dir k hk rest
        intro s hs
        cases hs
      | bool b =>
        rw [updateRefsEntries, if_pos rfl, dlookup_cons, dlookup_cons]
        dsimp only
        rw [if_neg hne, if_neg hne]
        exact updateRefsEntries_dlookup sc sws dir k hk rest
        intro s hs
        cases hs
      | num n =>
        rw [updateRefsEntries, if_pos rfl, dlookup_cons, dlookup_cons]
        dsimp only
        rw [if_neg hne, if_neg hne]
        exact updateRefsEntries_dlookup sc sws dir k hk rest
        intro s hs
        cases hs
      | arr xs =>
        rw [updateRefsEntries, if_pos rfl, dlookup_cons, dlookup_cons]
        dsimp only
        rw [if_neg hne, if_neg hne]
        exact updateRefsEntries_dlookup sc sws dir k hk rest
        intro s hs
        cases hs
      | obj kvs2 =>
        rw [updateRefsEntries, if_pos rfl, dlookup_cons, dlookup_cons]
        dsimp only
        rw [if_neg hne, if_neg hne]
        exact updateRefsEntries_dlookup sc sws dir k hk rest
        intro s hs
        cases hs
    · cases v with
      | str s =>
        rw [updateRefsEntries, if_neg h0, dlookup_cons, dlookup_cons]
        dsimp only
        by_cases hk0 : k0 = k
        · rw [if_pos hk0, if_pos hk0]
          rfl
        · rw [if_neg hk0, if_neg hk0]
          exact updateRefsEntries_dlookup sc sws dir k hk rest
      | null =>
        rw [updateRefsEntries, if_neg h0, dlookup_cons, dlookup_cons]
        dsimp only
        rotate_left
        · intro s hs
          cases hs
        by_cases hk0 : k0 = k
        · rw [if_pos hk0, if_pos hk0]
          rfl
        · rw [if_neg hk0, if_neg hk0]
          exact updateRefsEntries_dlookup sc sws dir k hk rest
      | bool b =>
        rw [updateRefsEntries, if_neg h0, dlookup_cons, dlookup_cons]
        dsimp only
        rotate_left
        · intro s hs
          cases hs
        by_cases hk0 : k0 = k
        · rw [if_pos hk0, if_pos hk0]
          rfl
        · rw [if_neg hk0, if_neg hk0]
          exact updateRefsEntries_dlookup sc sws dir k hk rest
      | num n =>
        rw [updateRefsEntries, if_neg h0, dlookup_cons, dlookup_cons]
        dsimp only
        rotate_left
        · intro s hs
          cases hs
        by_cases hk0 : k0 = k
        · rw [if_pos hk0, if_pos hk0]
          rfl
        · rw [if_neg hk0, if_neg hk0]
          exact updateRefsEntries_dlookup sc sws dir k hk rest
      | arr xs =>
        rw [updateRefsEntries, if_neg h0, dlookup_cons, dlookup_cons]
        dsimp only
        rotate_left
        · intro s hs
          cases hs
        by_cases hk0 : k0 = k
        · rw [if_pos hk0, if_pos hk0]
          rfl
        · rw [if_neg hk0, if_neg hk0]
          exact updateRefsEntries_dlookup sc sws dir k hk rest
      | obj kvs2 =>
        rw [updateRefsEntries, if_neg h0, dlookup_cons, dlookup_cons]
        dsimp only
        rotate_left
        · intro s hs
          cases hs
        by_cases hk0 : k0 = k
        · rw [if_pos hk0, if_pos hk0]
          rfl
        · rw [if_neg hk0, if_neg hk0]
          exact updateRefsEntries_dlookup sc sws dir k hk rest

theorem dlookup_opt_dinsertF_ne (m : Dict) (o : Option JSON) (g : JSON → JSON)
    (key k' : String) (h : k' ≠ key) :
    dlookup (match o with | some t => dinsert m key (g t) | none => m) k' =
      dlookup m k' := by
  cases o with
  | none => rfl
  | some t => exact dlookup_dinsert_ne m key k' (g t) h

theorem dlookup_drop_required (s2 : Dict) (k : String) :
    dlookup (if dContains s2 k then derase s2 k else s2) k = none := by
  by_cases h : dContains s2 k = true
  · rw [if_pos h]
    exact dlookup_derase_self s2 k
  · rw [if_neg h]
    exact dContains_false_dlookup s2 k (by simpa using h)

theorem mapM_scen_mem : ∀ (sts : List String) (f : String → Except String Dict)
    (scens : List (String × Dict)) (sc : String) (d : Dict),
    mapMExcept (fun x => Except.map (fun w => (x, w)) (f x)) sts = .ok scens →
    (sc, d) ∈ scens → f sc = .ok d
  | [], _, scens, sc, d, h, hm => by
    cases h
    cases hm
  | x :: sts', f, scens, sc, d, h, hm => by
    rw [mapMExcept] at h
    cases hf : f x with
    | error e =>
      rw [hf] at h
      rw [except_map_error_eq, except_bind_error_eq] at h
      cases h
    | ok d0 =>
      rw [hf] at h
      rw [except_map_ok_eq, except_bind_ok_eq] at h
      cases hrest : mapMExcept (fun x => Except.map (fun w => (x, w)) (f x)) sts' with
      | error e =>
        rw [hrest, except_bind_error_eq] at h
        cases h
      | ok ys =>
        rw [hrest, except_bind_ok_eq, except_pure_eq] at h
        injection h with h2
        subst h2
        rcases List.mem_cons.mp hm with he | hi
        · injection he with h1v h2v
          subst h1v
          subst h2v
          exact hf
        · exact mapM_scen_mem sts' f ys sc d hrest hi

theorem retitled_dlookup_ne (schema : Dict) (sc k : String) (h : k ≠ "title") :
    dlookup (retitled schema sc) k = dlookup schema k := by
  unfold retitled
  cases dlookup schema "title" with
  | none => rfl
  | some t => exact dlookup_dinsert_ne schema "title" k _ h

/-- Claim C1 (amended): for every scenario document generated from a
mapping-valued `properties` (with at least one observed scenario key), a
property name appears in the output `required` list iff its resolved
directive for that scenario is `"required"`, or it was listed in the base
document's `required` and its resolved directive (when an annotation
exists) is neither `"omit"` nor `"optional"` — so a property whose
annotation resolves to an unrecognised directive string keeps its base
required status, which is where the original claim (which only lets
unannotated properties inherit base `required`) fails; moreover the list
is sorted by code point, duplicate-free, and the `required` key is
entirely absent when the resulting set is empty. -/
theorem required_set_amended (schema : Dict) (baseName : String)
    (sws : List String) (schemaDir : String) (props : Dict)
    (scens : List (String × Dict)) (sc : String) (sdoc : Dict)
    (baseReq : List String)
    (hprops : dlookup schema "properties" = some (JSON.obj props))
    (hnd : (dkeys props).Nodup)
    (hreq : dlookup schema "required" = some (JSON.arr (baseReq.map JSON.str)) ∨
      (dlookup schema "required" = none ∧ baseReq = []))
    (hok : process_ucp_request_scenarios schema baseName sws schemaDir = .ok scens)
    (hmem : (sc, sdoc) ∈ scens)
    (hsts : collectScenarioTypes props ≠ []) :
    (∃ l : List String,
      dlookup sdoc "required" = some (JSON.arr (l.map JSON.str)) ∧
      List.Sorted (fun a b => strLeB a b = true) l ∧ l.Nodup ∧
      (∀ name, name ∈ l ↔ requiredCond props sc name baseReq)) ∨
    (dlookup sdoc "required" = none ∧
      ∀ name, ¬ requiredCond props sc name baseReq) := by
  unfold process_ucp_request_scenarios at hok
  rw [hprops] at hok
  dsimp only at hok
  rw [if_neg (by simpa [List.isEmpty_iff] using hsts)] at hok
  have hb : buildScenario schema sc sws schemaDir = .ok sdoc :=
    mapM_scen_mem _ (fun x => buildScenario schema x sws schemaDir) _ _ _ hok hmem
  unfold buildScenario at hb
  dsimp only at hb
  have hprops1 : dlookup (retitled schema sc) "properties" = some (JSON.obj props) := by
    rw [retitled_dlookup_ne schema sc "properties" (by decide)]
    exact hprops
  have hreq1 : dlookup (retitled schema sc) "required" = dlookup schema "required" :=
    retitled_dlookup_ne schema sc "required" (by decide)
  obtain ⟨R, hRok, hallR, hndR, hmemR⟩ :
      ∃ R, pySetOf (dgetD (retitled schema sc) "required" (JSON.arr [])) = .ok R ∧
        allStrs R ∧ R.Nodup ∧ (∀ x, JSON.str x ∈ R ↔ x ∈ baseReq) := by
    rcases hreq with hA | ⟨hN, hBe⟩
    · have hget : dgetD (retitled schema sc) "required" (JSON.arr []) =
          JSON.arr (baseReq.map JSON.str) := by
        unfold dgetD
        rw [hreq1, hA]
        rfl
      obtain ⟨h1, h2, h3⟩ := setOf_strs baseReq []
        (fun x hx => absurd hx (List.not_mem_nil x)) List.nodup_nil
      refine ⟨_, ?_, h1, h2, fun x => ?_⟩
      · rw [hget]
        exact pySetOf_str_arr baseReq
      · rw [h3 x]
        simp
    · subst hBe
      have hget : dgetD (retitled schema sc) "required" (JSON.arr []) = JSON.arr [] := by
        unfold dgetD
        rw [hreq1, hN]
        rfl
      refine ⟨[], ?_, fun x hx => absurd hx (List.not_mem_nil x), List.nodup_nil,
        fun x => by simp⟩
      rw [hget]
      rfl
  rw [hRok, except_bind_ok_eq, hprops1] at hb
  dsimp only at hb
  have hallR' : allStrs (ScanState.mk [] [] R).reqFields := hallR
  have hallF := fold_rf_allStrs sc props (ScanState.mk [] [] R) hallR'
  have hndF := fold_rf_nodup sc props (ScanState.mk [] [] R) hallR' hndR
  have hmemF : ∀ x, JSON.str x ∈ (props.foldl (directiveStep sc)
      (ScanState.mk [] [] R)).reqFields ↔ requiredCond props sc x baseReq := by
    intro x
    have hf := fold_rf_mem sc x props (ScanState.mk [] [] R) hallR' hnd
    dsimp only at hf
    rw [hmemR x] at hf
    exact hf
  cases hE : (props.foldl (directiveStep sc) (ScanState.mk [] [] R)).reqFields.isEmpty with
  | true =>
    rw [if_pos hE, except_pure_eq, except_bind_ok_eq, except_pure_eq] at hb
    injection hb with hb1
    refine Or.inr ⟨?_, ?_⟩
    · rw [← hb1]
      rw [updateRefsEntries_dlookup sc sws schemaDir "required" (by decide)]
      rw [dlookup_drop_required]
      rfl
    · intro name hcond
      have hm := (hmemF name).mpr hcond
      rw [List.isEmpty_iff.mp hE] at hm
      cases hm
  | false =>
    rw [if_neg (by simp [hE])] at hb
    rw [pySorted_strs hallF] at hb
    rw [except_bind_ok_eq, except_pure_eq, except_bind_ok_eq, except_pure_eq] at hb
    injection hb with hb1
    refine Or.inl ⟨sortStrs ((props.foldl (directiveStep sc)
      (ScanState.mk [] [] R)).reqFields.filterMap getStr), ?_, sortStrs_sorted _, ?_, ?_⟩
    · rw [← hb1]
      rw [updateRefsEntries_dlookup sc sws schemaDir "required" (by decide)]
      rw [dlookup_dinsert_self]
      rw [Option.map_some']
      rw [update_refs_str_arr]
    · exact (sortStrs_perm _).nodup_iff.mpr (nodup_filterMap_getStr hallF hndF)
    · intro name
      rw [(sortStrs_perm _).mem_iff, mem_filterMap_getStr]
      exact hmemF name

/-- Top-level properties of the C1 counterexample document: one property
`id` annotated with an unrecognised directive string for `create`. -/
def c1props : Dict :=
  [("id", JSON.obj [("ucp_request", JSON.obj [("create", JSON.str "weird")])])]

/-- The C1 counterexample document: `id` is base-required and carries a
`ucp_request` annotation resolving to `"weird"` for scenario `create`. -/
def c1schema : Dict :=
  [("properties", JSON.obj c1props), ("required", JSON.arr [JSON.str "id"])]

/-- The scenario document the generator produces for `create` from
`c1schema`. -/
def c1out : Dict :=
  [("properties", JSON.obj [("id", JSON.obj [])]),
   ("required", JSON.arr [JSON.str "id"])]

/-- Counterexample to claim C1 as stated: in the `create` scenario derived
from `c1schema`, the output `required` still contains `id`, although the
resolved directive of `id` is the unrecognised string `"weird"` (not
`"required"`) and the property does carry a `ucp_request` annotation — the
loop has no branch that discards base-required properties on unrecognised
directives, refuting the only-if direction of the claim. -/
theorem required_set_claim_counterexample :
    process_ucp_request_scenarios c1schema "item" [] "" = .ok [("create", c1out)] ∧
    dlookup c1out "required" = some (JSON.arr [JSON.str "id"]) ∧
    resolvedDirective c1props "create" "id" = some (JSON.str "weird") :=
  ⟨rfl, rfl, rfl⟩

/-- Witness for `required_set_amended` at the concrete document
`c1schema`, scenario `create`. -/
theorem required_set_amended_witness :
    (∃ l : List String,
      dlookup c1out "required" = some (JSON.arr (l.map JSON.str)) ∧
      List.Sorted (fun a b => strLeB a b = true) l ∧ l.Nodup ∧
      (∀ name, name ∈ l ↔ requiredCond c1props "create" name ["id"])) ∨
    (dlookup c1out "required" = none ∧
      ∀ name, ¬ requiredCond c1props "create" name ["id"]) :=
  required_set_amended c1schema "item" [] "" c1props [("create", c1out)] "create"
    c1out ["id"] rfl (by decide) (Or.inl rfl) rfl (List.Mem.head _) (by decide)
